import Mathlib

/-!
Shallow embedding of the gcache library (LRU cache core, ghost cache,
sampled ghost cache, KV ghost-cache curve, shared-cache relocation),
translated from `lru_cache.h`, `ghost_cache.h`, `ghost_kv_cache.h`,
`shared_cache.h` and the node table.

Modelling conventions:
* Pool nodes are identified by a `Nat` id; the C++ node pool is a function
  `Nat → Node V` updated pointwise (raw pointers become ids).
* Each intrusive dummy-head circular list (`lru_`, `in_use_`, `free_`,
  `erased_`) is a Lean `List Nat` in next-pointer order: the head of the
  Lean list is `list.next` (the oldest entry for `lru_`), and
  `list_append` (insert just before the dummy head, i.e. newest) is
  `· ++ [e]`.
* The `NodeTable` keeps buckets chained by `next_hash`; since a node is
  inserted into the bucket of its own hash and looked up with the same
  `(key, hash)` pair, bucket addressing never changes which node a
  `lookup`/`remove` finds, so the table is embedded as the list of node
  ids it holds, most recently inserted first (C++ prepends to a bucket).
* `uint32_t` hashes are `Nat` reduced `% 2^32`; the 64-bit counters
  (`size_t`, `uint64_t`) are `Nat` without wraparound, which agrees with
  the source on every trace of length below `2^64`.
* A C++ `assert` whose failure would make the function misbehave is
  modelled by an `Option` result (`none` = assertion failure / UB).
-/

namespace Gcache

/-- One pool slot, `LRUNode` of node.h: key, hash, refcount and value
payload (the `Meta` of the ghost cache lives in `value`). -/
structure Node (V : Type) where
  key : Nat
  hash : Nat
  refs : Nat
  value : V
  deriving Repr

/-- State of `LRUCache<Key_t, Value_t, Hash>`: the node pool, the four
dummy-head lists, the node table and the size/capacity counters. -/
structure LRU (V : Type) where
  size : Nat
  capacity : Nat
  nodes : Nat → Node V
  lru : List Nat
  in_use : List Nat
  free : List Nat
  erased : List Nat
  table : List Nat

variable {V : Type}

/-- Pointwise update of the node pool (a store to a node field). -/
def updNodes (f : Nat → Node V) (e : Nat) (n : Node V) : Nat → Node V :=
  fun i => if i = e then n else f i

/-- `Node_t::init(k, h)`: reset refs to 1 and store key and hash; the
value payload survives recycling. -/
def nodeInit (st : LRU V) (e : Nat) (key hash : Nat) : LRU V :=
  { st with nodes := (updNodes st.nodes e
      { key := key, hash := hash, refs := 1, value := (st.nodes e).value }) }

/-- `NodeTable::lookup(key, hash)`: first node matching both hash and key
(`find_pointer` walks the bucket; matching is on the full pair). -/
def tableLookup (st : LRU V) (key hash : Nat) : Option Nat :=
  st.table.find? fun e => (st.nodes e).hash == hash && (st.nodes e).key == key

/-- `NodeTable::remove(key, hash)`: unlink the first matching node. -/
def tableRemove (st : LRU V) (key hash : Nat) : LRU V :=
  { st with table :=
      st.table.eraseP fun e => (st.nodes e).hash == hash && (st.nodes e).key == key }

/-- `list_remove(e)`: unlink `e` from the circular list it is on.  The
lists are disjoint, so erasing from each of the four lists removes `e`
exactly from the one that holds it. -/
def listRemove (st : LRU V) (e : Nat) : LRU V :=
  { st with lru := st.lru.erase e, in_use := st.in_use.erase e,
            free := st.free.erase e, erased := st.erased.erase e }

/-- Element right after the first occurrence of `e` (the `e->next`
pointer inside a list; `none` stands for the dummy head). -/
def nextInList (l : List Nat) (e : Nat) : Option Nat :=
  match l with
  | [] => none
  | a :: rest => if a = e then rest.head? else nextInList rest e

/-- `LRUCache::alloc_node`: pop the free list, else evict the oldest
`lru_` entry (removing it from the table), else fail. -/
def allocNode (st : LRU V) : Option (LRU V × Nat) :=
  match st.free with
  | f :: fs => some ({ st with free := fs }, f)
  | [] =>
    match st.lru with
    | [] => none
    | e :: rest =>
      some ({ (tableRemove { st with lru := rest } (st.nodes e).key (st.nodes e).hash) with
                size := st.size - 1 }, e)

/-- `LRUCache::lru_refresh(e)`: move `e` to the MRU end of `lru_` and
return its old `next` (the successor); if `e` is already the MRU the
list is untouched and `e` itself is the successor. -/
def lruRefresh (st : LRU V) (e : Nat) : LRU V × Nat :=
  match nextInList st.lru e with
  | none => (st, e)
  | some succ => ({ st with lru := st.lru.erase e ++ [e] }, succ)

/-- `LRUCache::refresh(key, hash, &successor)`: returns the new state,
the handle (`none` = allocation failed) and the successor (`none` = a
new node was inserted). -/
def refresh (st : LRU V) (key hash : Nat) : LRU V × Option Nat × Option Nat :=
  match tableLookup st key hash with
  | some e =>
    let r := lruRefresh st e
    (r.1, some e, some r.2)
  | none =>
    match allocNode st with
    | none => (st, none, none)
    | some (st1, e) =>
      let st2 := nodeInit st1 e key hash
      ({ st2 with table := e :: st2.table, lru := st2.lru ++ [e],
                  size := st2.size + 1 }, some e, none)

/-- `LRUCache::ref(e)`: move to `in_use_` on the first pin, bump refs. -/
def refNode (st : LRU V) (e : Nat) : LRU V :=
  let st1 :=
    if (st.nodes e).refs = 1 then
      { (listRemove st e) with in_use := (listRemove st e).in_use ++ [e] }
    else st
  { st1 with nodes := (updNodes st1.nodes e
      { st1.nodes e with refs := (st1.nodes e).refs + 1 }) }

/-- `LRUCache::lookup_refresh(node, pin)`. -/
def lookupRefresh (st : LRU V) (e : Nat) (pin : Bool) : LRU V :=
  if pin then refNode st e
  else if (st.nodes e).refs = 1 then (lruRefresh st e).1
  else st

/-- `LRUCache::lookup_impl(key, hash, pin)`. -/
def lookupImpl (st : LRU V) (key hash : Nat) (pin : Bool) : LRU V × Option Nat :=
  match tableLookup st key hash with
  | some e => (lookupRefresh st e pin, some e)
  | none => (st, none)

/-- `LRUCache::insert_impl(key, hash, pin, hint_nonexist)`. -/
def insertImpl (st : LRU V) (key hash : Nat) (pin hint_nonexist : Bool) :
    LRU V × Option Nat :=
  let probe : LRU V × Option Nat :=
    if hint_nonexist then (st, none) else lookupImpl st key hash pin
  match probe with
  | (st', some e) => (st', some e)
  | (st', none) =>
    match allocNode st' with
    | none => (st', none)
    | some (st1, e) =>
      let st2 := nodeInit st1 e key hash
      let st3 := { st2 with table := e :: st2.table }
      if pin then
        ({ st3 with
            nodes := updNodes st3.nodes e ({ st3.nodes e with refs := 2 } : Node V),
            in_use := st3.in_use ++ [e], size := st3.size + 1 }, some e)
      else
        ({ st3 with lru := st3.lru ++ [e], size := st3.size + 1 }, some e)

/-- `LRUCache::erase(handle)`: only a node with `refs == 1` can be
erased; on success it is unlinked, parked on `erased_`, removed from the
table, and both `size_` and `capacity_` drop by one. -/
def eraseOp (st : LRU V) (e : Nat) : Bool × LRU V :=
  if (st.nodes e).refs ≠ 1 then (false, st)
  else
    let st1 := listRemove st e
    let st2 :=
      { st1 with
        erased := st1.erased ++ [e]
        nodes := (updNodes st1.nodes e
          { st1.nodes e with refs := (st1.nodes e).refs - 1 }) }
    let st3 := tableRemove st2 (st2.nodes e).key (st2.nodes e).hash
    (true, { st3 with size := st3.size - 1, capacity := st3.capacity - 1 })

/-- `LRUCache::preempt()`: give a slot back to the shared pool. -/
def preempt (st : LRU V) : LRU V × Option Nat :=
  match allocNode st with
  | none => (st, none)
  | some (st', e) => ({ st' with capacity := st'.capacity - 1 }, some e)

/-- `LRUCache::assign(handle)`: accept a slot from the shared pool
(`free_node` appends to the free list). -/
def assign (st : LRU V) (e : Nat) : LRU V :=
  { st with capacity := st.capacity + 1, free := st.free ++ [e] }

/-- `SharedCache::relocate(src, dst, n)` restricted to the two tenant
caches it touches (`src ≠ dst`): up to `n` rounds of `preempt` on `src`
then `assign` on `dst`, stopping when `src` is dry; returns the number
of slots moved together with the final states. -/
def relocate (s d : LRU V) : Nat → Nat × LRU V × LRU V
  | 0 => (0, s, d)
  | n + 1 =>
    match preempt s with
    | (s', none) => (0, s', d)
    | (s', some e) =>
      let r := relocate s' (assign d e) n
      (r.1 + 1, r.2.1, r.2.2)

/-- `LRUCache::init(capacity)`: pool slots `0 .. capacity-1` wired into
the free list front first; all other lists empty. -/
def initLRU (capacity : Nat) (v0 : V) : LRU V :=
  { size := 0, capacity := capacity,
    nodes := fun _ => { key := 0, hash := 0, refs := 0, value := v0 },
    lru := [], in_use := [], free := List.range capacity,
    erased := [], table := [] }


/-! ## Ghost cache (`ghost_cache.h`) -/

/-- `CacheStat` of stat.h: hit and miss counters. -/
structure CacheStat where
  hit_cnt : Nat
  miss_cnt : Nat
  deriving Repr, DecidableEq

/-- `AccessMode`: controls how an access updates the statistics. -/
inductive AccessMode where
  | DEFAULT
  | AS_MISS
  | AS_HIT
  | NOOP
  deriving Repr, DecidableEq

/-- Access to the `size_idx` field of a ghost-cache `Meta` payload
(the templated `Meta` of `GhostCache` must expose this field). -/
class MetaSizeIdx (V : Type) where
  sizeIdx : V → Nat
  setSizeIdx : V → Nat → V

/-- `GhostMeta<uint32_t>` is just the `size_idx` field. -/
instance : MetaSizeIdx Nat where
  sizeIdx := fun v => v
  setSizeIdx := fun _ n => n

/-- The construction-time parameters of a `GhostCache` (const fields). -/
structure GhostConfig where
  tick : Nat
  min_size : Nat
  max_size : Nat
  deriving Repr, DecidableEq

/-- `num_ticks = (max_size - min_size) / tick + 1`. -/
def GhostConfig.num_ticks (c : GhostConfig) : Nat :=
  (c.max_size - c.min_size) / c.tick + 1

/-- The constructor assertions of `GhostCache`. -/
def GhostConfig.Valid (c : GhostConfig) : Prop :=
  0 < c.tick ∧ 1 < c.min_size ∧
    c.min_size + (c.num_ticks - 1) * c.tick = c.max_size ∧ 2 < c.num_ticks

instance (c : GhostConfig) : Decidable c.Valid := by
  unfold GhostConfig.Valid; infer_instance

/-- Mutable state of a `GhostCache` over an inner `LRUCache` with `Meta`
payload `V`. -/
structure GhostState (V : Type) where
  cache : LRU V
  boundaries : List (Option Nat)
  caches_stat : List CacheStat
  reuse_distances : List Nat
  reuse_count : Nat

variable [MetaSizeIdx V]

/-- Store `n` into `size_idx` of node `e` (`h->size_idx = n`). -/
def setSizeIdxOf (c : LRU V) (e n : Nat) : LRU V :=
  { c with nodes := (updNodes c.nodes e
      { c.nodes e with value := MetaSizeIdx.setSizeIdx (c.nodes e).value n }) }

/-- `b->value.size_idx++` for a boundary node. -/
def incSizeIdxOf (c : LRU V) (e : Nat) : LRU V :=
  setSizeIdxOf c e (MetaSizeIdx.sizeIdx (c.nodes e).value + 1)

/-- `l[i] += 1` on a histogram (`++reuse_distances[i]`). -/
def incAt (l : List Nat) (i : Nat) : List Nat :=
  l.set i (l.getD i 0 + 1)

/-- The boundary-advancing loop of `access_impl`:
`for (i = 0; i < k; ++i) { if (!boundaries[i]) continue;
b->value.size_idx++; b = b->next; }`.  The recursion processes index
`k` after indices `0..k-1`, which is the ascending program order. -/
def advanceBoundaries (c : LRU V) (bd : List (Option Nat)) :
    Nat → LRU V × List (Option Nat)
  | 0 => (c, bd)
  | k + 1 =>
    let r := advanceBoundaries c bd k
    match r.2.getD k none with
    | none => r
    | some b => (incSizeIdxOf r.1 b, r.2.set k (nextInList r.1.lru b))

/-- `GhostCache::access_impl(block_id, hash, mode)`; `none` models the
failure of `assert(h)` (the inner allocation returned null).  Returns
the new ghost state and the accessed node. -/
def accessImpl (cfg : GhostConfig) (st : GhostState V) (block_id hash : Nat)
    (mode : AccessMode) : Option (GhostState V × Nat) :=
  let r := refresh st.cache block_id hash
  match r.2.1 with
  | none => none
  | some h =>
    let c1 := r.1
    let sOpt := r.2.2
    let p : Nat × List (Option Nat) :=
      match sOpt with
      | some s =>
        let k := MetaSizeIdx.sizeIdx (c1.nodes h).value
        (k, if k < cfg.num_ticks - 1 ∧ st.boundaries.getD k none = some h
            then st.boundaries.set k (some s) else st.boundaries)
      | none =>
        let k := if c1.size > cfg.min_size
                 then (c1.size - cfg.min_size + cfg.tick - 1) / cfg.tick else 0
        (k, if k < cfg.num_ticks - 1 ∧ c1.size = k * cfg.tick + cfg.min_size
            then st.boundaries.set k c1.lru.head? else st.boundaries)
    let a := advanceBoundaries c1 p.2 p.1
    let c3 := setSizeIdxOf a.1 h 0
    let ctrs : List Nat × Nat :=
      match mode with
      | .DEFAULT =>
        (if sOpt.isSome then incAt st.reuse_distances p.1 else st.reuse_distances,
         st.reuse_count + 1)
      | .AS_MISS => (st.reuse_distances, st.reuse_count + 1)
      | .AS_HIT => (incAt st.reuse_distances 0, st.reuse_count + 1)
      | .NOOP => (st.reuse_distances, st.reuse_count)
    some ({ cache := c3, boundaries := a.2, caches_stat := st.caches_stat,
            reuse_distances := ctrs.1, reuse_count := ctrs.2 }, h)

/-- `GhostCache::access(block_id, mode)` with hash function `hashFn`
(a 32-bit hash). -/
def access (cfg : GhostConfig) (hashFn : Nat → Nat) (st : GhostState V)
    (block_id : Nat) (mode : AccessMode) : Option (GhostState V × Nat) :=
  accessImpl cfg st block_id (hashFn block_id % 2 ^ 32) mode

/-- The accumulating loop of `GhostCache::build_caches_stat`, driven by
the histogram (same length as `caches_stat`). -/
def buildStats (rc : Nat) : Nat → List Nat → List CacheStat
  | _, [] => []
  | accum, d :: rest =>
    let a := accum + d
    { hit_cnt := a, miss_cnt := rc - a } :: buildStats rc a rest

/-- `GhostCache::build_caches_stat()`. -/
def buildCachesStat (st : GhostState V) : GhostState V :=
  { st with caches_stat := buildStats st.reuse_count 0 st.reuse_distances }

/-- `GhostCache::get_stat(cache_size)`: validation asserts become
`none`; the materialized array is lazily rebuilt when its entry does not
add up to `reuse_count`.  Returns the entry and the (possibly rebuilt)
state. -/
def getStat (cfg : GhostConfig) (st : GhostState V) (cache_size : Nat) :
    Option (CacheStat × GhostState V) :=
  if cache_size ≥ cfg.min_size ∧ cache_size ≤ cfg.max_size ∧
      (cache_size - cfg.min_size) % cfg.tick = 0 then
    if (cache_size - cfg.min_size) / cfg.tick < cfg.num_ticks then
      if (st.caches_stat.getD ((cache_size - cfg.min_size) / cfg.tick)
            ⟨0, 0⟩).hit_cnt +
          (st.caches_stat.getD ((cache_size - cfg.min_size) / cfg.tick)
            ⟨0, 0⟩).miss_cnt ≠ st.reuse_count then
        some ((buildCachesStat st).caches_stat.getD
          ((cache_size - cfg.min_size) / cfg.tick) ⟨0, 0⟩, buildCachesStat st)
      else
        some (st.caches_stat.getD ((cache_size - cfg.min_size) / cfg.tick)
          ⟨0, 0⟩, st)
    else none
  else none

/-- `GhostCache::reset_stat()`. -/
def resetStat (st : GhostState V) : GhostState V :=
  { st with reuse_count := 0,
            reuse_distances := st.reuse_distances.map fun _ => 0 }

/-- The `GhostCache` constructor: inner cache of capacity `max_size`,
`num_ticks - 1` null boundaries, zeroed stats and histogram. -/
def initGhost (cfg : GhostConfig) (v0 : V) : GhostState V :=
  { cache := initLRU cfg.max_size v0,
    boundaries := List.replicate (cfg.num_ticks - 1) none,
    caches_stat := List.replicate cfg.num_ticks ⟨0, 0⟩,
    reuse_distances := List.replicate cfg.num_ticks 0,
    reuse_count := 0 }

/-- Run a sequence of `access(key, mode)` calls. -/
def runAccesses (cfg : GhostConfig) (hashFn : Nat → Nat) (st : GhostState V) :
    List (Nat × AccessMode) → Option (GhostState V)
  | [] => some st
  | (k, m) :: rest =>
    match access cfg hashFn st k m with
    | none => none
    | some (st', _) => runAccesses cfg hashFn st' rest

/-- One client operation on a ghost cache: an access or a stat query. -/
inductive GhostOp where
  | acc (key : Nat) (mode : AccessMode)
  | query (cache_size : Nat)

/-- Run a sequence of accesses and `get_stat` queries. -/
def runOps (cfg : GhostConfig) (hashFn : Nat → Nat) (st : GhostState V) :
    List GhostOp → Option (GhostState V)
  | [] => some st
  | GhostOp.acc k m :: rest =>
    match access cfg hashFn st k m with
    | none => none
    | some (st', _) => runOps cfg hashFn st' rest
  | GhostOp.query sz :: rest =>
    match getStat cfg st sz with
    | none => none
    | some (_, st') => runOps cfg hashFn st' rest

/-! ## Sampled ghost cache -/

/-- The `SampledGhostCache` constructor shifts the three spectrum
parameters right by `SampleShift`. -/
def sampledCfg (S tick min_size max_size : Nat) : GhostConfig :=
  { tick := tick / 2 ^ S, min_size := min_size / 2 ^ S,
    max_size := max_size / 2 ^ S }

/-- `SampledGhostCache::access`: drop the event unless the top `S` bits
of the 32-bit hash are all zero (the `if constexpr (SampleShift > 0)`
guard). -/
def sampledAccess (cfg : GhostConfig) (S : Nat) (hashFn : Nat → Nat)
    (st : GhostState V) (block_id : Nat) (mode : AccessMode) :
    Option (GhostState V) :=
  let hash := hashFn block_id % 2 ^ 32
  if 0 < S ∧ hash / 2 ^ (32 - S) ≠ 0 then some st
  else (accessImpl cfg st block_id hash mode).map Prod.fst

/-- `SampledGhostCache::get_tick()` (output scaled by `2^S`). -/
def sampledGetTick (cfg : GhostConfig) (S : Nat) : Nat := cfg.tick * 2 ^ S

/-- `SampledGhostCache::get_min_size()`. -/
def sampledGetMinSize (cfg : GhostConfig) (S : Nat) : Nat := cfg.min_size * 2 ^ S

/-- `SampledGhostCache::get_max_size()`. -/
def sampledGetMaxSize (cfg : GhostConfig) (S : Nat) : Nat := cfg.max_size * 2 ^ S

/-- `SampledGhostCache::get_stat(cache_size)`: the input size is scaled
down by `2^S` and passed to the base `get_stat`. -/
def sampledGetStat (cfg : GhostConfig) (S : Nat) (st : GhostState V)
    (cache_size : Nat) : Option (CacheStat × GhostState V) :=
  getStat cfg st (cache_size / 2 ^ S)

/-! ## KV ghost cache (`ghost_kv_cache.h`) -/

/-- `GhostKvMeta`: `size_idx` plus the entry byte size. -/
structure KvMeta where
  size_idx : Nat
  kv_size : Nat
  deriving Repr, DecidableEq

instance : MetaSizeIdx KvMeta where
  sizeIdx := KvMeta.size_idx
  setSizeIdx := fun v n => { v with size_idx := n }

/-- `h->kv_size = kv_size` after the inner access. -/
def setKvSizeOf (c : LRU KvMeta) (e n : Nat) : LRU KvMeta :=
  { c with nodes := (updNodes c.nodes e
      { c.nodes e with value := { (c.nodes e).value with kv_size := n } }) }

/-- `SampledGhostKvCache::access(key_hash, kv_size, mode)`: the key hash
is used both as key and hash of the inner cache; dropped events leave
the state unchanged. -/
def kvAccess (cfg : GhostConfig) (S : Nat) (st : GhostState KvMeta)
    (key_hash kv_size : Nat) (mode : AccessMode) : Option (GhostState KvMeta) :=
  if 0 < S ∧ key_hash / 2 ^ (32 - S) ≠ 0 then some st
  else
    match accessImpl cfg st key_hash key_hash mode with
    | none => none
    | some (st', h) => some { st' with cache := setKvSizeOf st'.cache h kv_size }

/-- The round-up `(curr_count + tick - 1) / tick * tick` used for the
final point of the KV stat curve. -/
def kvCurveNext (tick curr : Nat) : Nat := (curr + tick - 1) / tick * tick

/-- The `for_each_mru` walk of `get_cache_stat_curve`, over the MRU-first
node sequence, accumulating the running count and byte size and emitting
a curve point at each tick boundary. -/
def curveLoop (cfg : GhostConfig) (S : Nat) (st : GhostState KvMeta)
    (curve : List (Nat × Nat × CacheStat)) (count size : Nat) :
    List Nat → Option (GhostState KvMeta × List (Nat × Nat × CacheStat) × Nat × Nat)
  | [] => some (st, curve, count, size)
  | h :: rest =>
    let count' := count + 1
    let size' := size + ((st.cache.nodes h).value).kv_size
    if count' ≥ cfg.min_size ∧ (count' - cfg.min_size) % cfg.tick = 0 then
      match getStat cfg st count' with
      | none => none
      | some (stat, st') =>
        curveLoop cfg S st' (curve ++ [(count' * 2 ^ S, size' * 2 ^ S, stat)])
          count' size' rest
    else curveLoop cfg S st curve count' size' rest

/-- `SampledGhostKvCache::get_cache_stat_curve()`: the walk plus the
manually added final tick when the working set ends between ticks. -/
def getCacheStatCurve (cfg : GhostConfig) (S : Nat) (st : GhostState KvMeta) :
    Option (List (Nat × Nat × CacheStat)) :=
  match curveLoop cfg S st [] 0 0 st.cache.lru.reverse with
  | none => none
  | some (st1, curve, cnt, sz) =>
    if cnt < cfg.min_size then
      match getStat cfg st1 cfg.min_size with
      | none => none
      | some (stat, _) => some (curve ++ [(cfg.min_size * 2 ^ S, sz * 2 ^ S, stat)])
    else if (cnt - cfg.min_size) % cfg.tick ≠ 0 then
      match getStat cfg st1 (kvCurveNext cfg.tick cnt) with
      | none => none
      | some (stat, _) =>
        some (curve ++ [(kvCurveNext cfg.tick cnt * 2 ^ S, sz * 2 ^ S, stat)])
    else some curve

/-- Run a sequence of KV accesses `(key_hash, kv_size, mode)`. -/
def runKvAccesses (cfg : GhostConfig) (S : Nat) (st : GhostState KvMeta) :
    List (Nat × Nat × AccessMode) → Option (GhostState KvMeta)
  | [] => some st
  | (kh, sz, m) :: rest =>
    match kvAccess cfg S st kh sz m with
    | none => none
    | some st' => runKvAccesses cfg S st' rest


/-! ## Concrete instances used by witnesses and counterexamples -/

/-- A 3-slot cache holding unpinned keys 5 and 6 (node ids 0 and 1). -/
def c6st : LRU Nat :=
  (insertImpl (insertImpl (initLRU 3 (0 : Nat)) 5 105 false false).1
    6 106 false false).1

/-- The spectrum `tick=2, min=3, max=7` (a legal configuration whose
minimum is not a multiple of the tick). -/
def c9cfg : GhostConfig := { tick := 2, min_size := 3, max_size := 7 }

/-- The KV ghost cache after four distinct un-sampled accesses: the
working set (4) lies strictly between the ticks 3 and 5. -/
def c9st : Option (GhostState KvMeta) :=
  runKvAccesses c9cfg 0 (initGhost c9cfg { size_idx := 0, kv_size := 0 })
    [(1, 10, AccessMode.DEFAULT), (2, 20, AccessMode.DEFAULT),
     (3, 30, AccessMode.DEFAULT), (4, 40, AccessMode.DEFAULT)]

/-- The spectrum `tick=1, min=3, max=6` of the first ghost-cache test. -/
def t1cfg : GhostConfig := { tick := 1, min_size := 3, max_size := 6 }

/-! ## Helper lemmas: the size-index arithmetic and list plumbing -/

/-- The smallest `k` such that a node at MRU-position `p` (0-based) is
resident in a cache of size `L + k*T` (a node at position `p` is
resident in a cache of size `c` iff `p < c`). -/
def sIdxOf (L T p : Nat) : Nat :=
  if p + 1 ≤ L then 0 else (p + 1 - L + T - 1) / T

/-- Sum of the first `n` histogram bins (`reuse_distances[0..n-1]`). -/
def sumTake (l : List Nat) (n : Nat) : Nat := (l.take n).sum

/-- Consistency of the lazily materialized `caches_stat` with the
histogram: lengths match the spectrum, the histogram total never
exceeds `reuse_count`, and any entry whose two counters already add up
to `reuse_count` holds the prefix-sum values of the current histogram. -/
def StatInv {V : Type} (cfg : GhostConfig) (st : GhostState V) : Prop :=
  st.caches_stat.length = cfg.num_ticks ∧
  st.reuse_distances.length = cfg.num_ticks ∧
  st.reuse_distances.sum ≤ st.reuse_count ∧
  ∀ j, j < cfg.num_ticks →
    ((st.caches_stat.getD j ⟨0, 0⟩).hit_cnt +
        (st.caches_stat.getD j ⟨0, 0⟩).miss_cnt ≤ st.reuse_count) ∧
    ((st.caches_stat.getD j ⟨0, 0⟩).hit_cnt +
        (st.caches_stat.getD j ⟨0, 0⟩).miss_cnt = st.reuse_count →
      st.caches_stat.getD j ⟨0, 0⟩ =
        ⟨sumTake st.reuse_distances (j + 1),
          st.reuse_count - sumTake st.reuse_distances (j + 1)⟩)

/-- The keys currently resident in the ghost cache (in LRU-to-MRU order). -/
def keysOf (st : GhostState Nat) : List Nat :=
  st.cache.lru.map fun e => (st.cache.nodes e).key

/-- Invariant of every `GhostCache` state reachable by `access` calls
with hash function `hashFn`: the ghost cache drives its inner LRU cache
only through `refresh`, so `in_use_` stays empty; the node at
MRU-position `j` (i.e. `cache.lru.reverse[j]`) carries
`size_idx = sIdxOf min_size tick j`; and `boundaries[k]` caches the node
at MRU-position `min_size + k*tick - 1` whenever that position exists. -/
structure GInv (cfg : GhostConfig) (hashFn : Nat → Nat)
    (st : GhostState Nat) : Prop where
  in_use_nil : st.cache.in_use = []
  nodup : (st.cache.free ++ st.cache.lru).Nodup
  size_eq : st.cache.size = st.cache.lru.length
  cap_eq : st.cache.capacity = cfg.max_size
  count_eq : st.cache.free.length + st.cache.lru.length = cfg.max_size
  tperm : st.cache.table.Perm st.cache.lru
  keys_inj : ∀ a ∈ st.cache.lru, ∀ b ∈ st.cache.lru,
    (st.cache.nodes a).key = (st.cache.nodes b).key → a = b
  hash_ok : ∀ a ∈ st.cache.lru,
    (st.cache.nodes a).hash = hashFn ((st.cache.nodes a).key) % 2 ^ 32
  idx_ok : ∀ j e, (st.cache.lru.reverse)[j]? = some e →
    (st.cache.nodes e).value = sIdxOf cfg.min_size cfg.tick j
  bnd_len : st.boundaries.length = cfg.num_ticks - 1
  bnd_ok : ∀ k, k < cfg.num_ticks - 1 →
    st.boundaries.getD k none =
      (st.cache.lru.reverse)[cfg.min_size + k * cfg.tick - 1]?

/-- How one `access_impl` call moves the resident key set: the LRU
length grows by one up to `max_size` on a miss and is unchanged on a
hit; every resident key is an old resident or the accessed key; no
resident key is lost while the cache is not full; the accessed key ends
up resident. -/
def StepFacts (cfg : GhostConfig) (st st' : GhostState Nat)
    (key : Nat) : Prop :=
  st'.cache.lru.length =
    (if key ∈ keysOf st then st.cache.lru.length
     else min (st.cache.lru.length + 1) cfg.max_size) ∧
  (∀ k2 ∈ keysOf st', k2 = key ∨ k2 ∈ keysOf st) ∧
  ((key ∈ keysOf st ∨ st.cache.lru.length < cfg.max_size) →
    ∀ k2 ∈ keysOf st, k2 ∈ keysOf st') ∧
  key ∈ keysOf st'


theorem ceilDiv_le_iff {T : Nat} (hT : 0 < T) (m k : Nat) :
    (m + T - 1) / T ≤ k ↔ m ≤ k * T := by
  rw [Nat.div_le_iff_le_mul_add_pred hT, Nat.mul_comm T k]
  constructor <;> intro h <;> omega

theorem sIdxOf_le_iff {L T : Nat} (hT : 0 < T) {p k : Nat} :
    sIdxOf L T p ≤ k ↔ p < L + k * T := by
  unfold sIdxOf
  split
  · constructor <;> intro _ <;> omega
  · rw [ceilDiv_le_iff hT]; omega

theorem lt_sIdxOf_iff {L T : Nat} (hT : 0 < T) {p k : Nat} :
    k < sIdxOf L T p ↔ L + k * T ≤ p := by
  rw [← Nat.not_le, ← Nat.not_lt (a := p)]
  exact not_congr (sIdxOf_le_iff hT)

theorem sIdxOf_self_lt {L T : Nat} (hT : 0 < T) (p : Nat) :
    p < L + sIdxOf L T p * T :=
  (sIdxOf_le_iff hT).1 le_rfl

theorem sIdxOf_zero {L T : Nat} (hL : 0 < L) : sIdxOf L T 0 = 0 := by
  unfold sIdxOf; rw [if_pos (by omega)]

theorem sIdxOf_boundary {L T : Nat} (hT : 0 < T) (hL : 0 < L) (i : Nat) :
    sIdxOf L T (L + i * T - 1) = i := by
  refine le_antisymm ((sIdxOf_le_iff hT).2 (by omega)) ?_
  rcases Nat.eq_zero_or_pos i with rfl | hi
  · exact Nat.zero_le _
  · have h1 : (i - 1) * T = i * T - T := Nat.sub_one_mul i T
    have h2 : T ≤ i * T := Nat.le_mul_of_pos_left T hi
    have := (lt_sIdxOf_iff (L := L) hT (p := L + i * T - 1) (k := i - 1)).2 (by omega)
    omega

theorem sIdxOf_at_tick {L T : Nat} (hT : 0 < T) (i : Nat) :
    sIdxOf L T (L + i * T) = i + 1 := by
  refine le_antisymm ((sIdxOf_le_iff hT).2 ?_) ?_
  · have h1 : (i + 1) * T = i * T + T := by ring
    omega
  · exact (lt_sIdxOf_iff hT).2 le_rfl

theorem sIdxOf_succ_eq {L T : Nat} (hT : 0 < T) (j : Nat)
    (hnot : ∀ i, j + 1 ≠ L + i * T) : sIdxOf L T (j + 1) = sIdxOf L T j := by
  refine le_antisymm ?_ ?_
  · rw [sIdxOf_le_iff hT]
    have h1 := sIdxOf_self_lt (L := L) (T := T) hT j
    have h2 := hnot (sIdxOf L T j)
    omega
  · rw [sIdxOf_le_iff hT]
    have := sIdxOf_self_lt (L := L) (T := T) hT (j + 1)
    omega

theorem code_k_eq_sIdxOf {L T : Nat} (size : Nat) (hsz : 0 < size) :
    (if size > L then (size - L + T - 1) / T else 0) = sIdxOf L T (size - 1) := by
  unfold sIdxOf
  rcases Nat.lt_or_ge L size with h | h
  · have : ¬ (size - 1 + 1 ≤ L) := by omega
    simp only [this, if_false, if_pos h]
    congr 1
    omega
  · have : size - 1 + 1 ≤ L := by omega
    simp [this, Nat.not_lt.2 h]

theorem erase_eq_eraseIdx (l : List Nat) (a : Nat) :
    l.erase a = l.eraseIdx (l.indexOf a) := by
  induction l with
  | nil => rfl
  | cons b t ih =>
    by_cases hb : b = a
    · subst hb
      simp [List.erase_cons, List.indexOf_cons_self]
    · rw [List.erase_cons, if_neg (by simpa using hb),
        List.indexOf_cons_ne _ (by simpa using hb)]
      rw [ih]
      rfl

theorem nextInList_eq_getElem? (l : List Nat) (e : Nat) :
    nextInList l e = l[l.indexOf e + 1]? := by
  induction l with
  | nil => rfl
  | cons a t ih =>
    unfold nextInList
    by_cases h : a = e
    · subst h
      simp [List.indexOf_cons_self, List.head?_eq_getElem?]
    · rw [if_neg h, List.indexOf_cons_ne _ h]
      simpa using ih


/-! ## C7: capacity conservation of `SharedCache::relocate` -/

theorem preempt_cases (s : LRU V) :
    (s.free = [] ∧ s.lru = [] ∧ preempt s = (s, none)) ∨
    (∃ f fs, s.free = f :: fs ∧
      preempt s = ({ s with free := fs, capacity := s.capacity - 1 }, some f)) ∨
    (∃ a rest, s.free = [] ∧ s.lru = a :: rest ∧
      preempt s =
        ({ (tableRemove { s with lru := rest } (s.nodes a).key (s.nodes a).hash) with
            size := s.size - 1, capacity := s.capacity - 1 }, some a)) := by
  cases hf : s.free with
  | cons f fs =>
    refine Or.inr (Or.inl ⟨f, fs, rfl, ?_⟩)
    unfold preempt allocNode
    rw [hf]
  | nil =>
    cases hl : s.lru with
    | nil =>
      refine Or.inl ⟨rfl, rfl, ?_⟩
      unfold preempt allocNode
      rw [hf, hl]
    | cons a rest =>
      refine Or.inr (Or.inr ⟨a, rest, rfl, rfl, ?_⟩)
      unfold preempt allocNode
      rw [hf, hl]
      rfl

/-- C7, proved part: `relocate` transfers `m ≤ n` slots, decreasing the
source capacity and increasing the destination capacity by exactly `m`
(so their sum is conserved), and stops early only when the source has
neither free nor evictable nodes. -/
theorem relocate_spec (s d : LRU V) (n : Nat)
    (hcap : s.capacity = s.free.length + s.lru.length + s.in_use.length) :
    (relocate s d n).1 ≤ n ∧
    (relocate s d n).2.1.capacity + (relocate s d n).1 = s.capacity ∧
    (relocate s d n).2.2.capacity = d.capacity + (relocate s d n).1 ∧
    (relocate s d n).2.1.capacity + (relocate s d n).2.2.capacity =
      s.capacity + d.capacity ∧
    ((relocate s d n).1 < n →
      (relocate s d n).2.1.free = [] ∧ (relocate s d n).2.1.lru = []) := by
  induction n generalizing s d with
  | zero =>
    simp [relocate]
  | succ n ih =>
    have hrel : relocate s d (n + 1) =
        (match preempt s with
          | (s', none) => (0, s', d)
          | (s', some e) =>
            let r := relocate s' (assign d e) n
            (r.1 + 1, r.2.1, r.2.2)) := rfl
    rcases preempt_cases s with ⟨hf, hl, hp⟩ | ⟨f, fs, hf, hp⟩ |
      ⟨a, rest, hf, hl, hp⟩
    · have h1 : (relocate s d (n + 1)).1 = 0 := by rw [hrel, hp]
      have h21 : (relocate s d (n + 1)).2.1 = s := by rw [hrel, hp]
      have h22 : (relocate s d (n + 1)).2.2 = d := by rw [hrel, hp]
      rw [h1, h21, h22]
      exact ⟨by omega, by omega, by omega, by omega, fun _ => ⟨hf, hl⟩⟩
    · set s' : LRU V := { s with free := fs, capacity := s.capacity - 1 } with hs'
      have h1 : (relocate s d (n + 1)).1 = (relocate s' (assign d f) n).1 + 1 := by
        rw [hrel, hp]
      have h21 : (relocate s d (n + 1)).2.1 = (relocate s' (assign d f) n).2.1 := by
        rw [hrel, hp]
      have h22 : (relocate s d (n + 1)).2.2 = (relocate s' (assign d f) n).2.2 := by
        rw [hrel, hp]
      have hcap' : s'.capacity = s'.free.length + s'.lru.length + s'.in_use.length := by
        rw [hs']
        simp only []
        rw [hf] at hcap
        simp only [List.length_cons] at hcap
        omega
      have ihh := ih s' (assign d f) hcap'
      have hac : (assign d f).capacity = d.capacity + 1 := rfl
      have hsc : s'.capacity + 1 = s.capacity := by
        rw [hs']; rw [hf] at hcap; simp only [List.length_cons] at hcap
        simp only []; omega
      rw [h1, h21, h22]
      exact ⟨by omega, by omega, by omega, by omega,
        fun hlt => ihh.2.2.2.2 (by omega)⟩
    · set s' : LRU V :=
        { (tableRemove { s with lru := rest } (s.nodes a).key (s.nodes a).hash) with
            size := s.size - 1, capacity := s.capacity - 1 } with hs'
      have h1 : (relocate s d (n + 1)).1 = (relocate s' (assign d a) n).1 + 1 := by
        rw [hrel, hp]
      have h21 : (relocate s d (n + 1)).2.1 = (relocate s' (assign d a) n).2.1 := by
        rw [hrel, hp]
      have h22 : (relocate s d (n + 1)).2.2 = (relocate s' (assign d a) n).2.2 := by
        rw [hrel, hp]
      have hfields : s'.free = s.free ∧ s'.lru = rest ∧ s'.in_use = s.in_use ∧
          s'.capacity = s.capacity - 1 := ⟨rfl, rfl, rfl, rfl⟩
      have hcap' : s'.capacity = s'.free.length + s'.lru.length + s'.in_use.length := by
        rw [hfields.1, hfields.2.1, hfields.2.2.1, hfields.2.2.2]
        rw [hf, hl] at hcap
        simp only [List.length_nil, List.length_cons] at hcap
        rw [hf]
        simp only [List.length_nil]
        omega
      have ihh := ih s' (assign d a) hcap'
      have hac : (assign d a).capacity = d.capacity + 1 := rfl
      have hsc : s'.capacity + 1 = s.capacity := by
        rw [hfields.2.2.2]
        rw [hf, hl] at hcap
        simp only [List.length_nil, List.length_cons] at hcap
        omega
      rw [h1, h21, h22]
      exact ⟨by omega, by omega, by omega, by omega,
        fun hlt => ihh.2.2.2.2 (by omega)⟩

/-- Witness for C7: moving 2 slots between a fresh 3-slot and a fresh
2-slot tenant. -/
theorem relocate_spec_witness :
    ((initLRU 3 (0 : Nat)).capacity =
        (initLRU 3 (0 : Nat)).free.length + (initLRU 3 (0 : Nat)).lru.length +
          (initLRU 3 (0 : Nat)).in_use.length) ∧
    ((relocate (initLRU 3 (0 : Nat)) (initLRU 2 (0 : Nat)) 2).1 ≤ 2 ∧
      (relocate (initLRU 3 (0 : Nat)) (initLRU 2 (0 : Nat)) 2).2.1.capacity +
          (relocate (initLRU 3 (0 : Nat)) (initLRU 2 (0 : Nat)) 2).1 =
        (initLRU 3 (0 : Nat)).capacity ∧
      (relocate (initLRU 3 (0 : Nat)) (initLRU 2 (0 : Nat)) 2).2.2.capacity =
        (initLRU 2 (0 : Nat)).capacity +
          (relocate (initLRU 3 (0 : Nat)) (initLRU 2 (0 : Nat)) 2).1 ∧
      (relocate (initLRU 3 (0 : Nat)) (initLRU 2 (0 : Nat)) 2).2.1.capacity +
          (relocate (initLRU 3 (0 : Nat)) (initLRU 2 (0 : Nat)) 2).2.2.capacity =
        (initLRU 3 (0 : Nat)).capacity + (initLRU 2 (0 : Nat)).capacity ∧
      ((relocate (initLRU 3 (0 : Nat)) (initLRU 2 (0 : Nat)) 2).1 < 2 →
        (relocate (initLRU 3 (0 : Nat)) (initLRU 2 (0 : Nat)) 2).2.1.free = [] ∧
        (relocate (initLRU 3 (0 : Nat)) (initLRU 2 (0 : Nat)) 2).2.1.lru = [])) :=
  ⟨by decide, relocate_spec (initLRU 3 (0 : Nat)) (initLRU 2 (0 : Nat)) 2 (by decide)⟩


/-! ## C5: failure modes of `insert` and `lookup` -/

theorem allocNode_none_iff (st : LRU V) :
    allocNode st = none ↔ st.free = [] ∧ st.lru = [] := by
  unfold allocNode
  cases hf : st.free with
  | cons f fs => simp
  | nil =>
    cases hl : st.lru with
    | nil => simp
    | cons e rest => simp

theorem lookupImpl_none_iff (st : LRU V) (key hash : Nat) (pin : Bool) :
    (lookupImpl st key hash pin).2 = none ↔ tableLookup st key hash = none := by
  unfold lookupImpl
  cases h : tableLookup st key hash with
  | none => simp
  | some e => simp

/-- C5, amended: `insert` returns null iff the key is absent from the
table and both the free list and the lru list are empty; `lookup`
returns null exactly for absent keys. -/
theorem insert_lookup_null_iff (st : LRU V) (key hash : Nat) (pin hint : Bool)
    (hhint : hint = true → tableLookup st key hash = none) :
    ((insertImpl st key hash pin hint).2 = none ↔
      tableLookup st key hash = none ∧ st.free = [] ∧ st.lru = []) ∧
    ∀ pin2, ((lookupImpl st key hash pin2).2 = none ↔
      tableLookup st key hash = none) := by
  refine ⟨?_, fun pin2 => lookupImpl_none_iff st key hash pin2⟩
  cases hint with
  | true =>
    have hlk := hhint rfl
    unfold insertImpl
    rw [if_pos rfl]
    cases halloc : allocNode st with
    | none =>
      have hfl := (allocNode_none_iff st).1 halloc
      simp [halloc, hlk, hfl]
    | some r =>
      have hne : ¬ (st.free = [] ∧ st.lru = []) := by
        intro hc
        rw [(allocNode_none_iff st).2 hc] at halloc
        exact Option.noConfusion halloc
      rcases r with ⟨st1, e⟩
      cases hpin : pin <;> simp [halloc, hlk, hne]
  | false =>
    unfold insertImpl
    rw [if_neg (by simp)]
    cases hlk : tableLookup st key hash with
    | some e =>
      unfold lookupImpl
      rw [hlk]
      simp
    | none =>
      unfold lookupImpl
      rw [hlk]
      cases halloc : allocNode st with
      | none =>
        have hfl := (allocNode_none_iff st).1 halloc
        simp [halloc, hlk, hfl]
      | some r =>
        have hne : ¬ (st.free = [] ∧ st.lru = []) := by
          intro hc
          rw [(allocNode_none_iff st).2 hc] at halloc
          exact Option.noConfusion halloc
        rcases r with ⟨st1, e⟩
        cases hpin : pin <;> simp [halloc, hlk, hne]

/-- Witness for C5: on a fresh 2-slot cache the insert of an absent key
succeeds, and lookups of absent keys return null. -/
theorem insert_lookup_null_iff_witness :
    ((insertImpl (initLRU 2 (0 : Nat)) 5 105 false false).2 = none ↔
      tableLookup (initLRU 2 (0 : Nat)) 5 105 = none ∧
        (initLRU 2 (0 : Nat)).free = [] ∧ (initLRU 2 (0 : Nat)).lru = []) ∧
    ∀ pin2, ((lookupImpl (initLRU 2 (0 : Nat)) 5 105 pin2).2 = none ↔
      tableLookup (initLRU 2 (0 : Nat)) 5 105 = none) :=
  insert_lookup_null_iff (initLRU 2 (0 : Nat)) 5 105 false false
    (by intro h; exact absurd h (by decide))

/-- Counterexample for C5 as frozen: with capacity 1 и a pinned
occupant, the free and lru lists are both empty, yet inserting the
resident key returns a non-null handle (the claimed "null iff exhausted
and all pinned" equivalence fails). -/
theorem insert_null_iff_counterexample :
    (insertImpl (initLRU 1 (0 : Nat)) 1 1001 true false).1.free = [] ∧
    (insertImpl (initLRU 1 (0 : Nat)) 1 1001 true false).1.lru = [] ∧
    (insertImpl ((insertImpl (initLRU 1 (0 : Nat)) 1 1001 true false).1)
        1 1001 false false).2 ≠ none := by
  decide


/-! ## C6: success and effect of `erase` -/

theorem eraseP_eq_erase (l : List Nat) (p : Nat → Bool) (e : Nat)
    (h : ∀ a ∈ l, (p a = true ↔ a = e)) : l.eraseP p = l.erase e := by
  induction l with
  | nil => rfl
  | cons b t ih =>
    rw [List.eraseP_cons, List.erase_cons]
    by_cases hb : b = e
    · subst hb
      have hpb : p b = true := (h b (List.mem_cons_self b t)).2 rfl
      simp [hpb]
    · have hpb : p b = false := by
        cases hq : p b with
        | true => exact absurd ((h b (List.mem_cons_self b t)).1 hq) hb
        | false => rfl
      have hih := ih fun a ha => h a (List.mem_cons_of_mem b ha)
      simp [hpb, hb, hih]

/-- C6: `erase` succeeds exactly on an unpinned resident node
(`refs == 1`), unlinking it from `lru_`, parking it on `erased_`,
removing it from the table and decrementing size and capacity; on a
pinned or already-erased node it returns false and changes nothing. -/
theorem erase_spec (st : LRU V) (e : Nat)
    (hmem : (st.nodes e).refs = 1 → e ∈ st.lru)
    (hnd : (st.lru ++ st.in_use ++ st.free ++ st.erased).Nodup)
    (hkeys : ∀ a ∈ st.table, (st.nodes a).key = (st.nodes e).key →
      (st.nodes a).hash = (st.nodes e).hash → a = e)
    (hsize : st.size = st.lru.length + st.in_use.length)
    (hcap : st.capacity = st.free.length + st.lru.length + st.in_use.length) :
    ((st.nodes e).refs ≠ 1 → eraseOp st e = (false, st)) ∧
    ((st.nodes e).refs = 1 →
      (eraseOp st e).1 = true ∧
      (eraseOp st e).2.lru = st.lru.erase e ∧
      (eraseOp st e).2.in_use = st.in_use ∧
      (eraseOp st e).2.free = st.free ∧
      (eraseOp st e).2.erased = st.erased ++ [e] ∧
      (eraseOp st e).2.table = st.table.erase e ∧
      (eraseOp st e).2.size + 1 = st.size ∧
      (eraseOp st e).2.capacity + 1 = st.capacity ∧
      ((eraseOp st e).2.nodes e).refs = 0) := by
  constructor
  · intro hne
    unfold eraseOp
    rw [if_pos hne]
  · intro h1
    have hml := hmem h1
    rw [List.nodup_append, List.nodup_append, List.nodup_append] at hnd
    have hnin : e ∉ st.in_use := fun hc => hnd.1.1.2.2 hml hc
    have hnfr : e ∉ st.free := fun hc =>
      hnd.1.2.2 (List.mem_append_left _ hml) hc
    have hner : e ∉ st.erased := fun hc =>
      hnd.2.2 (List.mem_append_left _ (List.mem_append_left _ hml)) hc
    have hlpos : 0 < st.lru.length := List.length_pos_of_mem hml
    have hcond : ¬ ((st.nodes e).refs ≠ 1) := fun hc => hc h1
    unfold eraseOp
    rw [if_neg hcond]
    refine ⟨rfl, rfl, ?_, ?_, ?_, ?_, ?_, ?_, ?_⟩
    · show st.in_use.erase e = st.in_use
      exact List.erase_of_not_mem hnin
    · show st.free.erase e = st.free
      exact List.erase_of_not_mem hnfr
    · show st.erased.erase e ++ [e] = st.erased ++ [e]
      rw [List.erase_of_not_mem hner]
    · refine eraseP_eq_erase _ _ _ fun a ha => ?_
      by_cases hae : a = e
      · subst hae
        simp [updNodes, listRemove]
      · constructor
        · intro hp
          have hp' : (st.nodes a).hash = (st.nodes e).hash ∧
              (st.nodes a).key = (st.nodes e).key := by
            simpa [listRemove, updNodes, hae] using hp
          exact hkeys a ha hp'.2 hp'.1
        · intro hc
          exact absurd hc hae
    · show st.size - 1 + 1 = st.size
      omega
    · show st.capacity - 1 + 1 = st.capacity
      omega
    · show ((updNodes st.nodes e
        { st.nodes e with refs := (st.nodes e).refs - 1 }) e).refs = 0
      simp [updNodes, h1]


/-- Witness for C6: erasing the unpinned node of key 5 (id 0) from a
3-slot cache holding keys 5 and 6. -/
theorem erase_spec_witness :
    (((c6st.nodes 0).refs = 1 → (0 : Nat) ∈ c6st.lru) ∧
      (c6st.lru ++ c6st.in_use ++ c6st.free ++ c6st.erased).Nodup ∧
      (∀ a ∈ c6st.table, (c6st.nodes a).key = (c6st.nodes 0).key →
        (c6st.nodes a).hash = (c6st.nodes 0).hash → a = 0) ∧
      c6st.size = c6st.lru.length + c6st.in_use.length ∧
      c6st.capacity = c6st.free.length + c6st.lru.length + c6st.in_use.length) ∧
    (((c6st.nodes 0).refs ≠ 1 → eraseOp c6st 0 = (false, c6st)) ∧
      ((c6st.nodes 0).refs = 1 →
        (eraseOp c6st 0).1 = true ∧
        (eraseOp c6st 0).2.lru = c6st.lru.erase 0 ∧
        (eraseOp c6st 0).2.in_use = c6st.in_use ∧
        (eraseOp c6st 0).2.free = c6st.free ∧
        (eraseOp c6st 0).2.erased = c6st.erased ++ [0] ∧
        (eraseOp c6st 0).2.table = c6st.table.erase 0 ∧
        (eraseOp c6st 0).2.size + 1 = c6st.size ∧
        (eraseOp c6st 0).2.capacity + 1 = c6st.capacity ∧
        ((eraseOp c6st 0).2.nodes 0).refs = 0)) :=
  ⟨⟨by decide, by decide, by decide, by decide, by decide⟩,
    erase_spec c6st 0 (by decide) (by decide) (by decide) (by decide) (by decide)⟩


/-! ## C3: the `refresh` fast path -/

theorem allocNode_cases (st : LRU V) :
    (st.free = [] ∧ st.lru = [] ∧ allocNode st = none) ∨
    (∃ f fs, st.free = f :: fs ∧
      allocNode st = some ({ st with free := fs }, f)) ∨
    (∃ a rest, st.free = [] ∧ st.lru = a :: rest ∧
      allocNode st = some
        ({ (tableRemove { st with lru := rest } (st.nodes a).key
              (st.nodes a).hash) with size := st.size - 1 }, a)) := by
  cases hf : st.free with
  | cons f fs =>
    refine Or.inr (Or.inl ⟨f, fs, rfl, ?_⟩)
    unfold allocNode
    rw [hf]
  | nil =>
    cases hl : st.lru with
    | nil =>
      refine Or.inl ⟨rfl, rfl, ?_⟩
      unfold allocNode
      rw [hf, hl]
    | cons a rest =>
      refine Or.inr (Or.inr ⟨a, rest, rfl, rfl, ?_⟩)
      unfold allocNode
      rw [hf, hl]
      try rfl

/-- C3: `refresh` returns an unpinned handle (in `lru_`, `refs == 1`,
not on `in_use_`); the successor is the node occupying the accessed
node's former position after the move; the successor is null iff the key
was newly inserted, and equals the handle itself iff the node was
already the MRU. -/
theorem refresh_spec (st : LRU V) (key hash : Nat)
    (hnd : (st.lru ++ st.in_use ++ st.free).Nodup)
    (hfound : ∀ e, tableLookup st key hash = some e →
      e ∈ st.lru ∧ (st.nodes e).refs = 1) :
    (∀ e, (refresh st key hash).2.1 = some e →
      e ∈ (refresh st key hash).1.lru ∧
      ((refresh st key hash).1.nodes e).refs = 1 ∧
      e ∉ (refresh st key hash).1.in_use) ∧
    ((refresh st key hash).2.1 ≠ none →
      ((refresh st key hash).2.2 = none ↔ tableLookup st key hash = none)) ∧
    (∀ e, tableLookup st key hash = some e →
      (refresh st key hash).2.2 =
        (refresh st key hash).1.lru[st.lru.indexOf e]?) ∧
    (∀ e, (refresh st key hash).2.1 = some e →
      ((refresh st key hash).2.2 = some e ↔
        tableLookup st key hash = some e ∧ st.lru.getLast? = some e)) := by
  rw [List.nodup_append, List.nodup_append] at hnd
  have hndl : st.lru.Nodup := hnd.1.1
  cases hlk : tableLookup st key hash with
  | some e0 =>
    obtain ⟨hml, hrefs⟩ := hfound e0 hlk
    have hnu : e0 ∉ st.in_use := hnd.1.2.2 hml
    have hidx : st.lru.indexOf e0 < st.lru.length := List.indexOf_lt_length.2 hml
    have hnil := nextInList_eq_getElem? st.lru e0
    by_cases hlast : st.lru.indexOf e0 + 1 < st.lru.length
    · have hsucc : nextInList st.lru e0 = some st.lru[st.lru.indexOf e0 + 1] := by
        rw [hnil]
        exact List.getElem?_eq_getElem hlast
      have hne0 : st.lru[st.lru.indexOf e0 + 1] ≠ e0 := by
        intro hc
        have he0 : st.lru[st.lru.indexOf e0] = e0 := List.getElem_indexOf hidx
        have := (hndl.getElem_inj_iff).1 (hc.trans he0.symm)
        omega
      refine ⟨?_, ?_, ?_, ?_⟩
      · intro e he
        simp only [refresh, hlk, lruRefresh, hsucc] at he ⊢
        cases he
        try dsimp only
        exact ⟨List.mem_append_right _ (List.mem_singleton.2 rfl), hrefs, hnu⟩
      · intro _
        simp [refresh, hlk, lruRefresh, hsucc]
      · intro e he
        cases he
        simp only [refresh, hlk, lruRefresh, hsucc]
        try dsimp only
        rw [List.getElem?_append, if_pos ?hlt]
        case hlt =>
          rw [erase_eq_eraseIdx, List.length_eraseIdx, if_pos hidx]
          omega
        rw [erase_eq_eraseIdx, List.getElem?_eraseIdx, if_neg (by omega),
          List.getElem?_eq_getElem hlast]
      · intro e he
        simp only [refresh, hlk, lruRefresh, hsucc] at he ⊢
        cases he
        try dsimp only
        constructor
        · intro hc
          have := Option.some.inj hc
          exact absurd this hne0
        · rintro ⟨-, hlast'⟩
          rw [List.getLast?_eq_getElem?] at hlast'
          rcases List.getElem?_eq_some.1 hlast' with ⟨hlen, hval⟩
          have : st.lru.indexOf e0 = st.lru.length - 1 := by
            have := List.indexOf_getElem hndl (st.lru.length - 1) hlen
            rw [hval] at this
            omega
          omega
    · have hnone : nextInList st.lru e0 = none := by
        rw [hnil]
        exact List.getElem?_eq_none (by omega)
      have hlastq : st.lru.getLast? = some e0 := by
        rw [List.getLast?_eq_getElem?]
        have hix : st.lru.indexOf e0 = st.lru.length - 1 := by omega
        rw [← hix]
        exact (List.getElem?_eq_getElem hidx).trans
          (congrArg some (List.getElem_indexOf hidx))
      refine ⟨?_, ?_, ?_, ?_⟩
      · intro e he
        simp only [refresh, hlk, lruRefresh, hnone] at he ⊢
        cases he
        try dsimp only
        exact ⟨hml, hrefs, hnu⟩
      · intro _
        simp [refresh, hlk, lruRefresh, hnone]
      · intro e he
        cases he
        simp only [refresh, hlk, lruRefresh, hnone]
        try dsimp only
        rw [List.getElem?_eq_getElem hidx]
        exact congrArg some (List.getElem_indexOf hidx).symm
      · intro e he
        simp only [refresh, hlk, lruRefresh, hnone] at he ⊢
        cases he
        try dsimp only
        simp [hlastq]
  | none =>
    rcases allocNode_cases st with ⟨hf, hl, ha⟩ | ⟨f, fs, hf, ha⟩ |
      ⟨a, rest, hf, hl, ha⟩
    · refine ⟨?_, ?_, ?_, ?_⟩
      · intro e he
        simp only [refresh, hlk, ha] at he
        cases he
      · intro hc
        simp [refresh, hlk, ha]
      · intro e he
        cases he
      · intro e he
        simp only [refresh, hlk, ha] at he
        cases he
    · have hfnu : f ∉ st.in_use := fun hc =>
        hnd.2.2 (List.mem_append_right _ hc) (hf ▸ List.mem_cons_self f fs)
      refine ⟨?_, ?_, ?_, ?_⟩
      · intro e he
        simp only [refresh, hlk, ha] at he ⊢
        cases he
        dsimp only [nodeInit]
        refine ⟨List.mem_append_right _ (List.mem_singleton.2 rfl), ?_, hfnu⟩
        simp [updNodes]
      · intro _
        simp [refresh, hlk, ha]
      · intro e he
        cases he
      · intro e he
        simp only [refresh, hlk, ha] at he ⊢
        cases he
        simp
    · have hanu : a ∉ st.in_use :=
        hnd.1.2.2 (hl ▸ List.mem_cons_self a rest)
      refine ⟨?_, ?_, ?_, ?_⟩
      · intro e he
        simp only [refresh, hlk, ha] at he ⊢
        cases he
        dsimp only [nodeInit, tableRemove]
        refine ⟨List.mem_append_right _ (List.mem_singleton.2 rfl), ?_, hanu⟩
        simp [updNodes]
      · intro _
        simp [refresh, hlk, ha]
      · intro e he
        cases he
      · intro e he
        simp only [refresh, hlk, ha] at he ⊢
        cases he
        simp


/-- Witness for C3: refreshing resident key 5 (node 0, the LRU end) in a
cache holding keys 5 and 6. -/
theorem refresh_spec_witness :
    ((c6st.lru ++ c6st.in_use ++ c6st.free).Nodup ∧
      (∀ e, tableLookup c6st 5 105 = some e →
        e ∈ c6st.lru ∧ (c6st.nodes e).refs = 1)) ∧
    ((∀ e, (refresh c6st 5 105).2.1 = some e →
        e ∈ (refresh c6st 5 105).1.lru ∧
        ((refresh c6st 5 105).1.nodes e).refs = 1 ∧
        e ∉ (refresh c6st 5 105).1.in_use) ∧
      ((refresh c6st 5 105).2.1 ≠ none →
        ((refresh c6st 5 105).2.2 = none ↔ tableLookup c6st 5 105 = none)) ∧
      (∀ e, tableLookup c6st 5 105 = some e →
        (refresh c6st 5 105).2.2 =
          (refresh c6st 5 105).1.lru[c6st.lru.indexOf e]?) ∧
      (∀ e, (refresh c6st 5 105).2.1 = some e →
        ((refresh c6st 5 105).2.2 = some e ↔
          tableLookup c6st 5 105 = some e ∧ c6st.lru.getLast? = some e))) := by
  have hfound : ∀ e, tableLookup c6st 5 105 = some e →
      e ∈ c6st.lru ∧ (c6st.nodes e).refs = 1 := by
    intro e he
    have h0 : tableLookup c6st 5 105 = some 0 := by decide
    rw [h0] at he
    cases he
    exact ⟨by decide, by decide⟩
  exact ⟨⟨by decide, hfound⟩, refresh_spec c6st 5 105 (by decide) hfound⟩


/-! ## C4: the access mode only selects the counter update -/

/-- C4: every mode performs the same refresh, boundary and `size_idx`
work as `DEFAULT` and differs only in the histogram/count update:
`AS_MISS` counts without a histogram bin, `AS_HIT` adds to bin 0,
`NOOP` touches nothing, and `DEFAULT` adds to bin `k` (the accessed
node's old `size_idx`) exactly on a hit (non-null successor) while
always counting. -/
theorem access_mode_spec (cfg : GhostConfig) (hashFn : Nat → Nat)
    (st : GhostState V) (key : Nat) :
    (access cfg hashFn st key AccessMode.AS_MISS =
      (access cfg hashFn st key AccessMode.DEFAULT).map fun r =>
        ({ r.1 with reuse_distances := st.reuse_distances,
                    reuse_count := st.reuse_count + 1 }, r.2)) ∧
    (access cfg hashFn st key AccessMode.AS_HIT =
      (access cfg hashFn st key AccessMode.DEFAULT).map fun r =>
        ({ r.1 with reuse_distances := incAt st.reuse_distances 0,
                    reuse_count := st.reuse_count + 1 }, r.2)) ∧
    (access cfg hashFn st key AccessMode.NOOP =
      (access cfg hashFn st key AccessMode.DEFAULT).map fun r =>
        ({ r.1 with reuse_distances := st.reuse_distances,
                    reuse_count := st.reuse_count }, r.2)) ∧
    (∀ st' h, access cfg hashFn st key AccessMode.DEFAULT = some (st', h) →
      st'.reuse_count = st.reuse_count + 1 ∧
      ((refresh st.cache key (hashFn key % 2 ^ 32)).2.2 = none →
        st'.reuse_distances = st.reuse_distances) ∧
      (∀ s, (refresh st.cache key (hashFn key % 2 ^ 32)).2.2 = some s →
        st'.reuse_distances = incAt st.reuse_distances
          (MetaSizeIdx.sizeIdx
            ((refresh st.cache key (hashFn key % 2 ^ 32)).1.nodes h).value))) := by
  cases hql : (refresh st.cache key (hashFn key % 2 ^ 32)).2.1 with
  | none =>
    have hN : ∀ m, access cfg hashFn st key m = none := by
      intro m
      simp only [access, accessImpl, hql]
    refine ⟨?_, ?_, ?_, ?_⟩
    · rw [hN, hN]; rfl
    · rw [hN, hN]; rfl
    · rw [hN, hN]; rfl
    · intro st' h' he
      rw [hN] at he
      cases he
  | some h0 =>
    refine ⟨?_, ?_, ?_, ?_⟩
    · simp only [access, accessImpl, hql, Option.map_some]
      try rfl
    · simp only [access, accessImpl, hql, Option.map_some]
      try rfl
    · simp only [access, accessImpl, hql, Option.map_some]
      try rfl
    · intro st' h' he
      cases hs : (refresh st.cache key (hashFn key % 2 ^ 32)).2.2 with
      | none =>
        simp only [access, accessImpl, hql, hs, Option.isSome_none,
          Bool.false_eq_true, if_false, Option.some.injEq, Prod.mk.injEq] at he
        obtain ⟨hst, hh⟩ := he
        subst hst
        refine ⟨rfl, fun _ => rfl, ?_⟩
        intro s hc
        simp at hc
      | some sc =>
        simp only [access, accessImpl, hql, hs, Option.isSome_some, if_true,
          Option.some.injEq, Prod.mk.injEq] at he
        obtain ⟨hst, hh⟩ := he
        subst hst
        subst hh
        refine ⟨rfl, ?_, fun s hc => rfl⟩
        intro hc
        simp at hc


/-- Witness for C4: the first access on a fresh `(1,3,6)` ghost cache,
exercising both a mapped mode and the `DEFAULT` counter clause. -/
theorem access_mode_spec_witness :
    (access t1cfg (fun x => x) (initGhost t1cfg (0 : Nat)) 0 AccessMode.AS_MISS =
      (access t1cfg (fun x => x) (initGhost t1cfg (0 : Nat)) 0
          AccessMode.DEFAULT).map fun r =>
        ({ r.1 with
            reuse_distances := (initGhost t1cfg (0 : Nat)).reuse_distances
            reuse_count := (initGhost t1cfg (0 : Nat)).reuse_count + 1 }, r.2)) ∧
    ∃ r, access t1cfg (fun x => x) (initGhost t1cfg (0 : Nat)) 0
        AccessMode.DEFAULT = some r ∧
      r.1.reuse_count = (initGhost t1cfg (0 : Nat)).reuse_count + 1 := by
  refine ⟨(access_mode_spec t1cfg (fun x => x) (initGhost t1cfg (0 : Nat)) 0).1, ?_⟩
  have hs : (access t1cfg (fun x => x) (initGhost t1cfg (0 : Nat)) 0
      AccessMode.DEFAULT).isSome = true := by decide
  obtain ⟨r, hr⟩ := Option.isSome_iff_exists.1 hs
  exact ⟨r, hr,
    ((access_mode_spec t1cfg (fun x => x) (initGhost t1cfg (0 : Nat)) 0).2.2.2
      r.1 r.2 (by rw [hr])).1⟩

/-! ## C8: sampling drop and size scaling -/

/-- C8: when the top `S` bits of the 32-bit hash are not all zero the
event is dropped with the whole ghost state (LRU list, boundaries,
histogram, count) unchanged; the size getters scale the internal
spectrum up by `2^S`, and `get_stat` scales its argument down by `2^S`
before indexing. -/
theorem sampled_drop_spec (cfg : GhostConfig) (S : Nat) (hashFn : Nat → Nat)
    (st : GhostState V) (block_id : Nat) (mode : AccessMode)
    (hS : 0 < S) (hdrop : hashFn block_id % 2 ^ 32 / 2 ^ (32 - S) ≠ 0) :
    sampledAccess cfg S hashFn st block_id mode = some st ∧
    sampledGetTick cfg S = cfg.tick * 2 ^ S ∧
    sampledGetMinSize cfg S = cfg.min_size * 2 ^ S ∧
    sampledGetMaxSize cfg S = cfg.max_size * 2 ^ S ∧
    (∀ cache_size, sampledGetStat cfg S st cache_size =
      getStat cfg st (cache_size / 2 ^ S)) := by
  refine ⟨?_, rfl, rfl, rfl, fun _ => rfl⟩
  unfold sampledAccess
  rw [if_pos ⟨hS, hdrop⟩]

/-- Witness for C8: a hash function whose value `2^31` has a non-zero
top bit, so a `SampleShift = 1` cache drops the access. -/
theorem sampled_drop_spec_witness :
    (0 < 1 ∧ (fun _ : Nat => 2 ^ 31) 7 % 2 ^ 32 / 2 ^ (32 - 1) ≠ 0) ∧
    (sampledAccess t1cfg 1 (fun _ => 2 ^ 31) (initGhost t1cfg (0 : Nat)) 7
        AccessMode.DEFAULT = some (initGhost t1cfg (0 : Nat)) ∧
      sampledGetTick t1cfg 1 = t1cfg.tick * 2 ^ 1 ∧
      sampledGetMinSize t1cfg 1 = t1cfg.min_size * 2 ^ 1 ∧
      sampledGetMaxSize t1cfg 1 = t1cfg.max_size * 2 ^ 1 ∧
      (∀ cache_size, sampledGetStat t1cfg 1 (initGhost t1cfg (0 : Nat)) cache_size =
        getStat t1cfg (initGhost t1cfg (0 : Nat)) (cache_size / 2 ^ 1))) :=
  ⟨⟨by decide, by decide⟩,
    sampled_drop_spec t1cfg 1 (fun _ => 2 ^ 31) (initGhost t1cfg (0 : Nat)) 7
      AccessMode.DEFAULT (by decide) (by decide)⟩

/-! ## C9: the final point of the KV stat curve (code bug) -/

/-- C9: on the legal spectrum `tick=2, min=3, max=7` with a working set
of 4 distinct keys, the walk of `get_cache_stat_curve` ends between
ticks; the code rounds the final count up to a multiple of the tick
(`kvCurveNext 2 4 = 4`), which is not on the spectrum grid
(`(4-3) % 2 ≠ 0`), so the final `get_stat` call violates its own
alignment assertion and the curve computation aborts (`none`).  The
next grid count above the working set would have been 5. -/
theorem kv_curve_final_tick_bug :
    c9cfg.Valid ∧
    (c9st.map fun st => st.cache.lru.length) = some 4 ∧
    kvCurveNext c9cfg.tick 4 = 4 ∧
    ¬ (4 ≥ c9cfg.min_size ∧ (4 - c9cfg.min_size) % c9cfg.tick = 0) ∧
    (5 ≥ c9cfg.min_size ∧ (5 - c9cfg.min_size) % c9cfg.tick = 0) ∧
    (c9st.map fun st => (getCacheStatCurve c9cfg 0 st).isNone) = some true ∧
    (c9st.map fun st => (getStat c9cfg st 4).isNone) = some true ∧
    (c9st.map fun st => (getStat c9cfg st 5).isSome) = some true := by
  decide


/-! ## C2: `get_stat` returns the histogram prefix sums -/

theorem sum_incAt_le (l : List Nat) (i : Nat) :
    (incAt l i).sum ≤ l.sum + 1 := by
  unfold incAt
  induction l generalizing i with
  | nil => simp
  | cons a t ih =>
    cases i with
    | zero =>
      simp only [List.set_cons_zero, List.sum_cons, List.getD_cons_zero]
      omega
    | succ i =>
      have h2 := ih i
      simp only [List.set_cons_succ, List.sum_cons, List.getD_cons_succ]
      omega

theorem length_incAt (l : List Nat) (i : Nat) :
    (incAt l i).length = l.length := by
  unfold incAt
  exact List.length_set l i _

theorem buildStats_length (rc acc : Nat) (l : List Nat) :
    (buildStats rc acc l).length = l.length := by
  induction l generalizing acc with
  | nil => rfl
  | cons d rest ih =>
    show (buildStats rc (acc + d) rest).length + 1 = rest.length + 1
    rw [ih]

theorem buildStats_getD (rc : Nat) (acc : Nat) (l : List Nat) (j : Nat)
    (hj : j < l.length) :
    (buildStats rc acc l).getD j ⟨0, 0⟩ =
      ⟨acc + sumTake l (j + 1), rc - (acc + sumTake l (j + 1))⟩ := by
  induction l generalizing acc j with
  | nil => simp at hj
  | cons d rest ih =>
    cases j with
    | zero =>
      show CacheStat.mk (acc + d) (rc - (acc + d)) = _
      simp [sumTake]
    | succ j =>
      have hj' : j < rest.length := by simpa using hj
      show (buildStats rc (acc + d) rest).getD j ⟨0, 0⟩ = _
      rw [ih (acc + d) j hj']
      have hs : sumTake (d :: rest) (j + 1 + 1) = d + sumTake rest (j + 1) := by
        simp [sumTake]
      rw [hs]
      congr 1 <;> omega

theorem statInv_init (cfg : GhostConfig) (v0 : V) :
    StatInv cfg (initGhost cfg v0) := by
  refine ⟨by simp [initGhost], by simp [initGhost], by simp [initGhost], ?_⟩
  intro j hj
  have hget : (initGhost cfg v0).caches_stat.getD j ⟨0, 0⟩ = ⟨0, 0⟩ := by
    simp [initGhost, List.getD_eq_getElem?_getD, List.getElem?_replicate, hj]
  have hsum : sumTake (initGhost cfg v0).reuse_distances (j + 1) = 0 := by
    simp only [initGhost]
    unfold sumTake
    rcases Nat.le_total (j + 1) cfg.num_ticks with h | h
    · rw [List.take_replicate]
      simp [Nat.min_eq_left h]
    · rw [List.take_replicate]
      simp
  rw [hget, hsum]
  simp [initGhost]

theorem accessImpl_counters (cfg : GhostConfig) (st : GhostState V)
    (key hash : Nat) (mode : AccessMode) (st' : GhostState V) (h : Nat)
    (he : accessImpl cfg st key hash mode = some (st', h)) :
    st'.caches_stat = st.caches_stat ∧
    st'.reuse_distances.length = st.reuse_distances.length ∧
    st'.reuse_distances.sum ≤ st.reuse_distances.sum + 1 ∧
    (st'.reuse_count = st.reuse_count + 1 ∨
      (st'.reuse_count = st.reuse_count ∧
        st'.reuse_distances = st.reuse_distances)) := by
  cases hql : (refresh st.cache key hash).2.1 with
  | none =>
    simp only [accessImpl, hql] at he
    cases he
  | some h0 =>
    cases mode <;>
      simp only [accessImpl, hql, Option.some.injEq, Prod.mk.injEq] at he <;>
      obtain ⟨hst, hh⟩ := he <;> subst hst
    · refine ⟨rfl, ?_, ?_, Or.inl rfl⟩
      · show (if (refresh st.cache key hash).2.2.isSome = true
            then incAt st.reuse_distances _ else st.reuse_distances).length =
          st.reuse_distances.length
        split
        · exact length_incAt _ _
        · rfl
      · show (if (refresh st.cache key hash).2.2.isSome = true
            then incAt st.reuse_distances _ else st.reuse_distances).sum ≤
          st.reuse_distances.sum + 1
        split
        · exact sum_incAt_le _ _
        · omega
    · exact ⟨rfl, rfl, Nat.le_succ _, Or.inl rfl⟩
    · exact ⟨rfl, length_incAt _ _, sum_incAt_le _ _, Or.inl rfl⟩
    · exact ⟨rfl, rfl, Nat.le_succ _, Or.inr ⟨rfl, rfl⟩⟩

theorem statInv_access (cfg : GhostConfig) (st : GhostState V)
    (key hash : Nat) (mode : AccessMode) (st' : GhostState V) (h : Nat)
    (he : accessImpl cfg st key hash mode = some (st', h))
    (hinv : StatInv cfg st) : StatInv cfg st' := by
  obtain ⟨hcs, hlen, hsum, hctr⟩ := accessImpl_counters cfg st key hash mode st' h he
  obtain ⟨hl1, hl2, hs, hj⟩ := hinv
  rcases hctr with hc1 | ⟨hc1, hc2⟩
  · refine ⟨hcs ▸ hl1, hlen.trans hl2, ?_, ?_⟩
    · have h1 : st'.reuse_distances.sum ≤ st.reuse_distances.sum + 1 := hsum
      have h3 : st'.reuse_count = st.reuse_count + 1 := hc1
      omega
    · intro j hjn
      have hthis := hj j hjn
      rw [hcs, hc1]
      constructor
      · omega
      · intro hq
        omega
  · refine ⟨hcs ▸ hl1, hlen.trans hl2, ?_, ?_⟩
    · have h1 : st'.reuse_distances.sum = st.reuse_distances.sum := by rw [hc2]
      omega
    · intro j hjn
      have hthis := hj j hjn
      rw [hcs, hc1, hc2]
      exact hthis

theorem getStat_statInv (cfg : GhostConfig) (st : GhostState V)
    (cache_size : Nat) (stat : CacheStat) (st' : GhostState V)
    (he : getStat cfg st cache_size = some (stat, st'))
    (hinv : StatInv cfg st) : StatInv cfg st' := by
  obtain ⟨hl1, hl2, hs, hj⟩ := hinv
  unfold getStat at he
  by_cases hval : cache_size ≥ cfg.min_size ∧ cache_size ≤ cfg.max_size ∧
      (cache_size - cfg.min_size) % cfg.tick = 0
  · rw [if_pos hval] at he
    by_cases hlt : (cache_size - cfg.min_size) / cfg.tick < cfg.num_ticks
    · rw [if_pos hlt] at he
      by_cases hneq : (st.caches_stat.getD ((cache_size - cfg.min_size) / cfg.tick)
          ⟨0, 0⟩).hit_cnt + (st.caches_stat.getD ((cache_size - cfg.min_size) / cfg.tick)
          ⟨0, 0⟩).miss_cnt ≠ st.reuse_count
      · rw [if_pos hneq] at he
        simp only [Option.some.injEq, Prod.mk.injEq] at he
        obtain ⟨-, hst⟩ := he
        subst hst
        refine ⟨?_, hl2, hs, ?_⟩
        · show (buildStats st.reuse_count 0 st.reuse_distances).length = _
          rw [buildStats_length, hl2]
        · intro j hjn
          have hjl : j < st.reuse_distances.length := by omega
          have hget : (buildCachesStat st).caches_stat.getD j ⟨0, 0⟩ =
              ⟨sumTake st.reuse_distances (j + 1),
                st.reuse_count - sumTake st.reuse_distances (j + 1)⟩ := by
            show (buildStats st.reuse_count 0 st.reuse_distances).getD j ⟨0, 0⟩ = _
            rw [buildStats_getD st.reuse_count 0 st.reuse_distances j hjl]
            congr 1 <;> omega
          have hsle : sumTake st.reuse_distances (j + 1) ≤ st.reuse_count := by
            have : sumTake st.reuse_distances (j + 1) ≤ st.reuse_distances.sum := by
              unfold sumTake
              exact List.Sublist.sum_le_sum (List.take_sublist _ _)
                (fun a _ => Nat.zero_le a)
            omega
          rw [hget]
          have hrc : (buildCachesStat st).reuse_count = st.reuse_count := rfl
          refine ⟨?_, fun _ => rfl⟩
          show sumTake st.reuse_distances (j + 1) +
            (st.reuse_count - sumTake st.reuse_distances (j + 1)) ≤
              (buildCachesStat st).reuse_count
          omega
      · rw [if_neg hneq] at he
        simp only [Option.some.injEq, Prod.mk.injEq] at he
        obtain ⟨-, hst⟩ := he
        subst hst
        exact ⟨hl1, hl2, hs, hj⟩
    · rw [if_neg hlt] at he
      cases he
  · rw [if_neg hval] at he
    cases he


theorem sumTake_le_sum (l : List Nat) (n : Nat) : sumTake l n ≤ l.sum :=
  List.Sublist.sum_le_sum (List.take_sublist n l) fun a _ => Nat.zero_le a

theorem statInv_runOps (cfg : GhostConfig) (hashFn : Nat → Nat)
    (st : GhostState V) (ops : List GhostOp) (st' : GhostState V)
    (hrun : runOps cfg hashFn st ops = some st') (hinv : StatInv cfg st) :
    StatInv cfg st' := by
  induction ops generalizing st with
  | nil =>
    unfold runOps at hrun
    cases hrun
    exact hinv
  | cons op rest ih =>
    cases op with
    | acc k m =>
      cases ha : access cfg hashFn st k m with
      | none =>
        unfold runOps at hrun
        rw [ha] at hrun
        cases hrun
      | some r =>
        unfold runOps at hrun
        rw [ha] at hrun
        exact ih r.1 hrun (statInv_access cfg st k _ m r.1 r.2
          (show access cfg hashFn st k m = some (r.1, r.2) by rw [ha]) hinv)
    | query sz =>
      cases hq : getStat cfg st sz with
      | none =>
        unfold runOps at hrun
        rw [hq] at hrun
        cases hrun
      | some r =>
        unfold runOps at hrun
        rw [hq] at hrun
        exact ih r.2 hrun (getStat_statInv cfg st sz r.1 r.2
          (show getStat cfg st sz = some (r.1, r.2) by rw [hq]) hinv)

/-- C2: after any sequence of accesses and queries from a freshly
constructed ghost cache, `get_stat(size)` on a valid spectrum size
returns the entry whose `hit_cnt` is the prefix sum
`reuse_distances[0] + ... + reuse_distances[k]` (`k = (size-min)/tick`)
and whose `miss_cnt` is `reuse_count` minus that sum; in particular
`hit_cnt + miss_cnt = reuse_count`. -/
theorem getStat_prefix_sum (cfg : GhostConfig) (hv : cfg.Valid)
    (hashFn : Nat → Nat) (v0 : V) (ops : List GhostOp) (st : GhostState V)
    (hrun : runOps cfg hashFn (initGhost cfg v0) ops = some st)
    (size : Nat) (h1 : cfg.min_size ≤ size) (h2 : size ≤ cfg.max_size)
    (h3 : (size - cfg.min_size) % cfg.tick = 0) :
    (getStat cfg st size).map Prod.fst =
      some ⟨sumTake st.reuse_distances ((size - cfg.min_size) / cfg.tick + 1),
        st.reuse_count -
          sumTake st.reuse_distances ((size - cfg.min_size) / cfg.tick + 1)⟩ ∧
    (∀ stat st2, getStat cfg st size = some (stat, st2) →
      stat.hit_cnt + stat.miss_cnt = st.reuse_count) := by
  obtain ⟨hT, hL, hEq, hN⟩ := hv
  have hinv := statInv_runOps cfg hashFn _ ops st hrun (statInv_init cfg v0)
  obtain ⟨hl1, hl2, hs, hj⟩ := hinv
  have hdiv : (cfg.max_size - cfg.min_size) / cfg.tick = cfg.num_ticks - 1 := by
    have : cfg.max_size - cfg.min_size = (cfg.num_ticks - 1) * cfg.tick := by
      omega
    rw [this, Nat.mul_div_cancel _ hT]
  have hk : (size - cfg.min_size) / cfg.tick < cfg.num_ticks := by
    have hle : (size - cfg.min_size) / cfg.tick ≤
        (cfg.max_size - cfg.min_size) / cfg.tick :=
      Nat.div_le_div_right (by omega)
    omega
  have hkl : (size - cfg.min_size) / cfg.tick < st.reuse_distances.length := by
    omega
  have hsle : sumTake st.reuse_distances ((size - cfg.min_size) / cfg.tick + 1) ≤
      st.reuse_count := le_trans (sumTake_le_sum _ _) hs
  have hmain : (getStat cfg st size).map Prod.fst =
      some ⟨sumTake st.reuse_distances ((size - cfg.min_size) / cfg.tick + 1),
        st.reuse_count -
          sumTake st.reuse_distances ((size - cfg.min_size) / cfg.tick + 1)⟩ := by
    unfold getStat
    rw [if_pos ⟨h1, h2, h3⟩, if_pos hk]
    by_cases hneq : (st.caches_stat.getD ((size - cfg.min_size) / cfg.tick)
        ⟨0, 0⟩).hit_cnt + (st.caches_stat.getD ((size - cfg.min_size) / cfg.tick)
        ⟨0, 0⟩).miss_cnt ≠ st.reuse_count
    · rw [if_pos hneq]
      have hb : (buildCachesStat st).caches_stat.getD
          ((size - cfg.min_size) / cfg.tick) ⟨0, 0⟩ =
          ⟨sumTake st.reuse_distances ((size - cfg.min_size) / cfg.tick + 1),
            st.reuse_count -
              sumTake st.reuse_distances ((size - cfg.min_size) / cfg.tick + 1)⟩ := by
        show (buildStats st.reuse_count 0 st.reuse_distances).getD _ ⟨0, 0⟩ = _
        rw [buildStats_getD st.reuse_count 0 st.reuse_distances _ hkl]
        congr 1 <;> omega
      rw [hb]
      rfl
    · rw [if_neg hneq]
      have hc := (hj _ hk).2 (by omega)
      rw [hc]
      rfl
  refine ⟨hmain, ?_⟩
  intro stat st2 hq
  have : (getStat cfg st size).map Prod.fst = some stat := by rw [hq]; rfl
  rw [hmain] at this
  cases this
  show sumTake st.reuse_distances ((size - cfg.min_size) / cfg.tick + 1) +
    (st.reuse_count -
      sumTake st.reuse_distances ((size - cfg.min_size) / cfg.tick + 1)) =
    st.reuse_count
  omega

/-- Witness for C2: three accesses (one hit) on a `(1,3,6)` ghost cache,
then `get_stat(3)`. -/
theorem getStat_prefix_sum_witness :
    t1cfg.Valid ∧ t1cfg.min_size ≤ 3 ∧ 3 ≤ t1cfg.max_size ∧
    (3 - t1cfg.min_size) % t1cfg.tick = 0 ∧
    ∃ st, runOps t1cfg (fun x => x) (initGhost t1cfg (0 : Nat))
        [GhostOp.acc 0 AccessMode.DEFAULT, GhostOp.acc 1 AccessMode.DEFAULT,
          GhostOp.acc 0 AccessMode.DEFAULT] = some st ∧
      (getStat t1cfg st 3).map Prod.fst =
        some ⟨sumTake st.reuse_distances ((3 - t1cfg.min_size) / t1cfg.tick + 1),
          st.reuse_count -
            sumTake st.reuse_distances ((3 - t1cfg.min_size) / t1cfg.tick + 1)⟩ ∧
      (∀ stat st2, getStat t1cfg st 3 = some (stat, st2) →
        stat.hit_cnt + stat.miss_cnt = st.reuse_count) := by
  refine ⟨by decide, by decide, by decide, by decide, ?_⟩
  have hsome : (runOps t1cfg (fun x => x) (initGhost t1cfg (0 : Nat))
      [GhostOp.acc 0 AccessMode.DEFAULT, GhostOp.acc 1 AccessMode.DEFAULT,
        GhostOp.acc 0 AccessMode.DEFAULT]).isSome = true := by decide
  obtain ⟨st, hst⟩ := Option.isSome_iff_exists.1 hsome
  obtain ⟨ha, hb⟩ := getStat_prefix_sum t1cfg (by decide) (fun x => x) 0 _ st hst
    3 (by decide) (by decide) (by decide)
  exact ⟨st, hst, ha, hb⟩


theorem reverse_eraseIdx (l : List Nat) (i : Nat) (hi : i < l.length) :
    (l.eraseIdx i).reverse = l.reverse.eraseIdx (l.length - 1 - i) := by
  apply List.ext_getElem?
  intro j
  by_cases hj : j < l.length - 1
  · rw [List.getElem?_reverse (by rw [List.length_eraseIdx, if_pos hi]; omega),
      List.getElem?_eraseIdx, List.getElem?_eraseIdx, List.length_eraseIdx,
      if_pos hi]
    by_cases h1 : l.length - 1 - i ≤ j
    · rw [if_pos (by omega), if_neg (by omega),
        List.getElem?_reverse (by omega)]
      congr 1
      omega
    · rw [if_neg (by omega), if_pos (by omega),
        List.getElem?_reverse (by omega)]
      congr 1
      omega
  · have h1 : (l.eraseIdx i).reverse.length = l.length - 1 := by
      rw [List.length_reverse, List.length_eraseIdx, if_pos hi]
    have h2 : (l.reverse.eraseIdx (l.length - 1 - i)).length = l.length - 1 := by
      rw [List.length_eraseIdx, if_pos (by rw [List.length_reverse]; omega),
        List.length_reverse]
    rw [List.getElem?_eq_none (by omega), List.getElem?_eq_none (by omega)]

theorem cons_eraseIdx_getElem_lt (rev : List Nat) (hN p q : Nat)
    (hq1 : 1 ≤ q) (hqp : q ≤ p) :
    (hN :: rev.eraseIdx p)[q]? = rev[q - 1]? := by
  obtain ⟨q, rfl⟩ : ∃ q', q = q' + 1 := ⟨q - 1, by omega⟩
  simp only [List.getElem?_cons_succ, List.getElem?_eraseIdx,
    Nat.add_sub_cancel]
  rw [if_pos (by omega)]

theorem cons_eraseIdx_getElem_ge (rev : List Nat) (hN p q : Nat)
    (hq : p + 1 ≤ q) :
    (hN :: rev.eraseIdx p)[q]? = rev[q]? := by
  obtain ⟨q, rfl⟩ : ∃ q', q = q' + 1 := ⟨q - 1, by omega⟩
  simp only [List.getElem?_cons_succ, List.getElem?_eraseIdx]
  rw [if_neg (by omega)]

theorem nextInList_reverse (rl : List Nat) (hnd : rl.Nodup)
    (q : Nat) (hq : q < rl.length) (e : Nat) (he : rl[q]? = some e) :
    nextInList rl.reverse e = if q = 0 then none else rl[q - 1]? := by
  have hgety : rl.reverse[rl.length - 1 - q]? = some e := by
    rw [List.getElem?_reverse (by omega)]
    rw [show rl.length - 1 - (rl.length - 1 - q) = q by omega]
    exact he
  have hidx : rl.reverse.indexOf e = rl.length - 1 - q := by
    have hlt : rl.length - 1 - q < rl.reverse.length := by
      rw [List.length_reverse]; omega
    have := List.indexOf_getElem (l := rl.reverse)
      (by simpa using hnd) (rl.length - 1 - q) hlt
    rwa [(List.getElem?_eq_some.mp (by simpa using hgety)).choose_spec] at this
  rw [nextInList_eq_getElem?, hidx]
  by_cases h0 : q = 0
  · subst h0
    rw [if_pos rfl, List.getElem?_eq_none]
    rw [List.length_reverse]; omega
  · rw [if_neg h0, List.getElem?_reverse (by omega)]
    congr 1
    omega

theorem nodup_getElem?_inj {l : List Nat} (hnd : l.Nodup) {q1 q2 e : Nat}
    (h1 : l[q1]? = some e) (h2 : l[q2]? = some e) : q1 = q2 := by
  obtain ⟨hq1, he1⟩ := List.getElem?_eq_some.mp h1
  obtain ⟨hq2, he2⟩ := List.getElem?_eq_some.mp h2
  exact (List.Nodup.getElem_inj_iff hnd).mp (he1.trans he2.symm)

theorem getD_set_self (l : List (Option Nat)) (i : Nat) (v : Option Nat)
    (hi : i < l.length) : (l.set i v).getD i none = v := by
  rw [List.getD_eq_getElem?_getD, List.getElem?_set]
  simp [hi]

theorem getD_set_ne (l : List (Option Nat)) (i m : Nat) (v : Option Nat)
    (hm : m ≠ i) : (l.set i v).getD m none = l.getD m none := by
  rw [List.getD_eq_getElem?_getD, List.getElem?_set, if_neg (by omega),
    List.getD_eq_getElem?_getD]

theorem eraseIdx_self_length (l : List Nat) : l.eraseIdx l.length = l := by
  induction l with
  | nil => rfl
  | cons a t ih => rw [List.length_cons, List.eraseIdx_cons_succ, ih]

theorem eraseIdx_concat (l : List Nat) (x : Nat) :
    (l ++ [x]).eraseIdx l.length = l := by
  induction l with
  | nil => rfl
  | cons a t ih =>
    rw [List.cons_append, List.length_cons, List.eraseIdx_cons_succ, ih]

theorem self_eq_cons_eraseIdx_zero (l : List Nat) (e : Nat)
    (h : l[0]? = some e) : l = e :: l.eraseIdx 0 := by
  cases l with
  | nil => simp at h
  | cons a t =>
    rw [List.getElem?_cons_zero] at h
    rw [Option.some.inj h]
    rfl

theorem toFinset_append_mem (S : List Nat) (key : Nat) (h : key ∈ S) :
    (S ++ [key]).toFinset = S.toFinset := by
  rw [List.toFinset_append, Finset.union_eq_left]
  intro z hz
  simp at hz
  rw [hz]
  exact List.mem_toFinset.mpr h

theorem toFinset_append_not_mem (S : List Nat) (key : Nat) (h : key ∉ S) :
    (S ++ [key]).toFinset.card = S.toFinset.card + 1 := by
  rw [List.toFinset_append, Finset.union_comm, List.toFinset_cons,
    List.toFinset_nil, Finset.insert_union, Finset.empty_union]
  exact Finset.card_insert_of_not_mem (fun hc => h (List.mem_toFinset.mp hc))

theorem toFinset_append_card_le (S : List Nat) (key : Nat) :
    S.toFinset.card ≤ (S ++ [key]).toFinset.card := by
  apply Finset.card_le_card
  rw [List.toFinset_append]
  exact Finset.subset_union_left

theorem advance_spec (L T : Nat) (hT : 0 < T) (hL : 0 < L)
    (c1 : LRU Nat) (bd1 : List (Option Nat)) (rev : List Nat) (hN p k : Nat)
    (hrev1 : c1.lru.reverse = hN :: rev.eraseIdx p)
    (hnd1 : (hN :: rev.eraseIdx p).Nodup)
    (hrevnd : rev.Nodup)
    (hplen : p < (hN :: rev.eraseIdx p).length)
    (hidx : ∀ j e, j ≠ p → rev[j]? = some e → (c1.nodes e).value = sIdxOf L T j)
    (hbds : ∀ m, m < k → bd1.getD m none = rev[L + m * T - 1]?)
    (hkp : ∀ m, m < k → L + m * T ≤ p)
    (hple : p ≤ rev.length)
    (hklen : k ≤ bd1.length) :
    ∀ i, i ≤ k →
      (advanceBoundaries c1 bd1 i).1.lru = c1.lru ∧
      (advanceBoundaries c1 bd1 i).1.free = c1.free ∧
      (advanceBoundaries c1 bd1 i).1.in_use = c1.in_use ∧
      (advanceBoundaries c1 bd1 i).1.erased = c1.erased ∧
      (advanceBoundaries c1 bd1 i).1.table = c1.table ∧
      (advanceBoundaries c1 bd1 i).1.size = c1.size ∧
      (advanceBoundaries c1 bd1 i).1.capacity = c1.capacity ∧
      (advanceBoundaries c1 bd1 i).2.length = bd1.length ∧
      (∀ e, (∀ m, m < i → rev[L + m * T - 1]? ≠ some e) →
        (advanceBoundaries c1 bd1 i).1.nodes e = c1.nodes e) ∧
      (∀ m, m < i → ∀ e, rev[L + m * T - 1]? = some e →
        (advanceBoundaries c1 bd1 i).1.nodes e =
          { c1.nodes e with value := m + 1 }) ∧
      (∀ m, i ≤ m →
        (advanceBoundaries c1 bd1 i).2.getD m none = bd1.getD m none) ∧
      (∀ m, m < i → (advanceBoundaries c1 bd1 i).2.getD m none =
        (hN :: rev.eraseIdx p)[L + m * T - 1]?) := by
  intro i
  induction i with
  | zero =>
    intro _
    exact ⟨rfl, rfl, rfl, rfl, rfl, rfl, rfl, rfl,
      fun e _ => rfl, fun m hm => absurd hm (Nat.not_lt_zero m),
      fun m _ => rfl, fun m hm => absurd hm (Nat.not_lt_zero m)⟩
  | succ i ih =>
    intro hik
    obtain ⟨hlru, hfree, hinuse, herased, htable, hsize, hcap, hbdlen,
      hkeep, hupd, hbdhi, hbdlo⟩ := ih (by omega)
    have hqlt : L + i * T - 1 < rev.length := by
      have := hkp i (by omega); omega
    obtain ⟨b, hb⟩ : ∃ b, rev[L + i * T - 1]? = some b :=
      ⟨rev[L + i * T - 1], List.getElem?_eq_getElem hqlt⟩
    have hscrut : (advanceBoundaries c1 bd1 i).2.getD i none = some b := by
      rw [hbdhi i le_rfl, hbds i (by omega), hb]
    have hstep : advanceBoundaries c1 bd1 (i + 1) =
        (incSizeIdxOf (advanceBoundaries c1 bd1 i).1 b,
         (advanceBoundaries c1 bd1 i).2.set i
           (nextInList (advanceBoundaries c1 bd1 i).1.lru b)) := by
      simp only [advanceBoundaries, hscrut]
    have hnodes : ∀ e, (incSizeIdxOf (advanceBoundaries c1 bd1 i).1 b).nodes e =
        if e = b then { (advanceBoundaries c1 bd1 i).1.nodes b with
          value := ((advanceBoundaries c1 bd1 i).1.nodes b).value + 1 }
        else (advanceBoundaries c1 bd1 i).1.nodes e := by
      intro e
      rfl
    have hposinj : ∀ m, m < i → L + m * T - 1 ≠ L + i * T - 1 := by
      intro m hm
      have := (Nat.mul_lt_mul_right hT).mpr hm
      omega
    have hbne : ∀ m, m < i → rev[L + m * T - 1]? ≠ some b := by
      intro m hm hcontra
      exact hposinj m hm (nodup_getElem?_inj hrevnd hcontra hb)
    have hc1b : (advanceBoundaries c1 bd1 i).1.nodes b = c1.nodes b :=
      hkeep b hbne
    have hnext : nextInList (advanceBoundaries c1 bd1 i).1.lru b =
        (hN :: rev.eraseIdx p)[L + i * T - 1]? := by
      rw [hlru, show c1.lru = (hN :: rev.eraseIdx p).reverse from
        by rw [← hrev1, List.reverse_reverse]]
      have hqp : L + i * T ≤ p := hkp i (by omega)
      have hb1 : (hN :: rev.eraseIdx p)[L + i * T]? = some b := by
        rw [cons_eraseIdx_getElem_lt rev hN p _ (by omega) hqp]
        exact hb
      rw [nextInList_reverse _ hnd1 (L + i * T) (by omega) b hb1,
        if_neg (by omega)]
    rw [hstep]
    refine ⟨hlru, hfree, hinuse, herased, htable, hsize, hcap, ?_,
      ?_, ?_, ?_, ?_⟩
    · rw [List.length_set]; exact hbdlen
    · intro e he
      rw [hnodes e, if_neg ?_]
      · exact hkeep e fun m hm => he m (by omega)
      · intro hcontra
        exact he i (by omega) (by rw [hb, hcontra])
    · intro m hm e he
      rcases Nat.lt_or_ge m i with hmi | hmi
      · have hne : e ≠ b := by
          intro hcontra
          exact hbne m hmi (by rw [he, hcontra])
        rw [hnodes e, if_neg hne]
        exact hupd m hmi e he
      · have hmi : m = i := by omega
        subst hmi
        have heb : e = b := by
          have := he.symm.trans hb
          exact Option.some.inj this
        subst heb
        rw [hnodes e, if_pos rfl, hc1b]
        have hval : (c1.nodes e).value = m := by
          rw [hidx (L + m * T - 1) e ?_ he]
          · exact sIdxOf_boundary hT hL m
          · have := hkp m (by omega); omega
        rw [hval]
    · intro m hm
      rw [getD_set_ne _ _ _ _ (by omega)]
      exact hbdhi m (by omega)
    · intro m hm
      rcases Nat.lt_or_ge m i with hmi | hmi
      · rw [getD_set_ne _ _ _ _ (by omega)]
        exact hbdlo m hmi
      · have hmi : m = i := by omega
        subst hmi
        rw [getD_set_self _ _ _ (by rw [hbdlen]; omega), hnext]

theorem ghost_post_char (L T Nt : Nat) (hT : 0 < T) (hL : 0 < L)
    (c1 : LRU Nat) (bd1 : List (Option Nat)) (rev : List Nat) (hN p k : Nat)
    (hk : k = sIdxOf L T p)
    (hrev1 : c1.lru.reverse = hN :: rev.eraseIdx p)
    (hnd1 : (hN :: rev.eraseIdx p).Nodup)
    (hrevnd : rev.Nodup)
    (hplen : p < (hN :: rev.eraseIdx p).length)
    (hple : p ≤ rev.length)
    (hNpos : ∀ q, rev[q]? = some hN → q = p)
    (hidx : ∀ j e, j ≠ p → rev[j]? = some e → (c1.nodes e).value = sIdxOf L T j)
    (hbd1_lt : ∀ m, m < Nt - 1 → m ≠ k → bd1.getD m none = rev[L + m * T - 1]?)
    (hbd1_k : k < Nt - 1 →
      bd1.getD k none = (hN :: rev.eraseIdx p)[L + k * T - 1]?)
    (hbd1len : bd1.length = Nt - 1)
    (hkN : k ≤ Nt - 1) :
    (∀ j e, (hN :: rev.eraseIdx p)[j]? = some e →
      ((setSizeIdxOf (advanceBoundaries c1 bd1 k).1 hN 0).nodes e).value =
        sIdxOf L T j) ∧
    (∀ m, m < Nt - 1 → (advanceBoundaries c1 bd1 k).2.getD m none =
      (hN :: rev.eraseIdx p)[L + m * T - 1]?) ∧
    (setSizeIdxOf (advanceBoundaries c1 bd1 k).1 hN 0).lru = c1.lru ∧
    (setSizeIdxOf (advanceBoundaries c1 bd1 k).1 hN 0).free = c1.free ∧
    (setSizeIdxOf (advanceBoundaries c1 bd1 k).1 hN 0).in_use = c1.in_use ∧
    (setSizeIdxOf (advanceBoundaries c1 bd1 k).1 hN 0).erased = c1.erased ∧
    (setSizeIdxOf (advanceBoundaries c1 bd1 k).1 hN 0).table = c1.table ∧
    (setSizeIdxOf (advanceBoundaries c1 bd1 k).1 hN 0).size = c1.size ∧
    (setSizeIdxOf (advanceBoundaries c1 bd1 k).1 hN 0).capacity = c1.capacity ∧
    (advanceBoundaries c1 bd1 k).2.length = Nt - 1 ∧
    (∀ e, ((setSizeIdxOf (advanceBoundaries c1 bd1 k).1 hN 0).nodes e).key =
        (c1.nodes e).key ∧
      ((setSizeIdxOf (advanceBoundaries c1 bd1 k).1 hN 0).nodes e).hash =
        (c1.nodes e).hash ∧
      ((setSizeIdxOf (advanceBoundaries c1 bd1 k).1 hN 0).nodes e).refs =
        (c1.nodes e).refs) := by
  have hkp : ∀ m, m < k → L + m * T ≤ p := by
    intro m hm
    rw [hk] at hm
    exact (lt_sIdxOf_iff hT).mp hm
  have hbds : ∀ m, m < k → bd1.getD m none = rev[L + m * T - 1]? := by
    intro m hm
    exact hbd1_lt m (by omega) (by omega)
  obtain ⟨hlru, hfree, hinuse, herased, htable, hsize, hcap, hbdlen,
    hkeep, hupd, hbdhi, hbdlo⟩ :=
    advance_spec L T hT hL c1 bd1 rev hN p k hrev1 hnd1 hrevnd hplen hidx
      hbds hkp hple (by omega) k le_rfl
  have hNnotin : hN ∉ rev.eraseIdx p := (List.nodup_cons.mp hnd1).1
  have hsetnodes : ∀ e,
      (setSizeIdxOf (advanceBoundaries c1 bd1 k).1 hN 0).nodes e =
      if e = hN then { (advanceBoundaries c1 bd1 k).1.nodes hN with value := 0 }
      else (advanceBoundaries c1 bd1 k).1.nodes e := by
    intro e
    rfl
  have hloopN : (advanceBoundaries c1 bd1 k).1.nodes hN = c1.nodes hN := by
    refine hkeep hN ?_
    intro m hm hcontra
    have := hNpos (L + m * T - 1) hcontra
    have := hkp m hm
    omega
  refine ⟨?_, ?_, hlru, hfree, hinuse, herased, htable, hsize, hcap,
    by rw [hbdlen, hbd1len], ?_⟩
  · intro j e hj
    match j, hj with
    | 0, hj =>
      rw [List.getElem?_cons_zero] at hj
      have he : e = hN := (Option.some.inj hj).symm
      subst he
      rw [hsetnodes, if_pos rfl, sIdxOf_zero hL]
    | j' + 1, hj =>
      rw [List.getElem?_cons_succ] at hj
      have hmem : e ∈ rev.eraseIdx p := by
        obtain ⟨hlt, he2⟩ := List.getElem?_eq_some.mp hj
        exact he2 ▸ List.getElem_mem hlt
      have hene : e ≠ hN := fun hcontra => hNnotin (hcontra ▸ hmem)
      rw [hsetnodes, if_neg hene]
      by_cases hjp : j' + 1 ≤ p
      · have hrevj : rev[j']? = some e := by
          have := cons_eraseIdx_getElem_lt rev hN p (j' + 1) (by omega) hjp
          rw [List.getElem?_cons_succ, Nat.add_sub_cancel] at this
          rw [← this]
          exact hj
        by_cases hjump : ∃ m, j' + 1 = L + m * T
        · obtain ⟨m, hm⟩ := hjump
          have hmk : m < k := by
            rw [hk, lt_sIdxOf_iff hT]
            omega
          have hidxpos : L + m * T - 1 = j' := by omega
          have hrevm : rev[L + m * T - 1]? = some e := by rw [hidxpos]; exact hrevj
          rw [hupd m hmk e hrevm, hm, sIdxOf_at_tick hT]
        · rw [hkeep e ?_]
          · rw [hidx j' e (by omega) hrevj]
            have := sIdxOf_succ_eq hT j' (fun i hcon => hjump ⟨i, hcon⟩)
            omega
          · intro m hm hcontra
            have := nodup_getElem?_inj hrevnd hcontra hrevj
            have := hkp m hm
            exact hjump ⟨m, by omega⟩
      · have hrevj : rev[j' + 1]? = some e := by
          have := cons_eraseIdx_getElem_ge rev hN p (j' + 1) (by omega)
          rw [← this]
          simpa using hj
        rw [hkeep e ?_]
        · exact hidx (j' + 1) e (by omega) hrevj
        · intro m hm hcontra
          have := nodup_getElem?_inj hrevnd hcontra hrevj
          have := hkp m hm
          omega
  · intro m hm
    rcases Nat.lt_trichotomy m k with hmk | hmk | hmk
    · exact hbdlo m hmk
    · subst hmk
      rw [hbdhi m le_rfl]
      exact hbd1_k hm
    · rw [hbdhi m (by omega), hbd1_lt m hm (by omega)]
      have hself : p < L + k * T := hk ▸ sIdxOf_self_lt hT p
      have hmul : (k + 1) * T ≤ m * T := Nat.mul_le_mul_right T (by omega)
      have hq : p + 1 ≤ L + m * T - 1 := by
        have : (k + 1) * T = k * T + T := by ring
        omega
      rw [cons_eraseIdx_getElem_ge rev hN p (L + m * T - 1) hq]
  · intro e
    rw [hsetnodes]
    by_cases he : e = hN
    · subst he
      rw [if_pos rfl, hloopN]
      exact ⟨rfl, rfl, rfl⟩
    · rw [if_neg he]
      by_cases hup : ∃ m, m < k ∧ rev[L + m * T - 1]? = some e
      · obtain ⟨m, hm, hme⟩ := hup
        rw [hupd m hm e hme]
        exact ⟨rfl, rfl, rfl⟩
      · rw [hkeep e fun m hm hcontra => hup ⟨m, hm, hcontra⟩]
        exact ⟨rfl, rfl, rfl⟩

theorem ghost_step_hit (cfg : GhostConfig) (hv : cfg.Valid)
    (hashFn : Nat → Nat) (st : GhostState Nat)
    (hinv : GInv cfg hashFn st) (key hash : Nat) (mode : AccessMode) (e : Nat)
    (hlk : tableLookup st.cache key hash = some e) :
    ∃ st' h, accessImpl cfg st key hash mode = some (st', h) ∧
      GInv cfg hashFn st' ∧ StepFacts cfg st st' key := by
  obtain ⟨hT, hL, hUT, hNt⟩ := hv
  have hpred := List.find?_some hlk
  have hetab : e ∈ st.cache.table := List.mem_of_find?_eq_some hlk
  rw [Bool.and_eq_true, beq_iff_eq, beq_iff_eq] at hpred
  have helru : e ∈ st.cache.lru := hinv.tperm.mem_iff.mp hetab
  have hkey : (st.cache.nodes e).key = key := hpred.2
  have hlrund : st.cache.lru.Nodup := (List.nodup_append.mp hinv.nodup).2.1
  have hrevnd : st.cache.lru.reverse.Nodup := List.nodup_reverse.mpr hlrund
  have hlen1 : 0 < st.cache.lru.length :=
    List.length_pos.mpr (List.ne_nil_of_mem helru)
  have hrevlen : st.cache.lru.reverse.length = st.cache.lru.length :=
    List.length_reverse _
  obtain ⟨p, hplt, hrevp, hc1rev, hsucc, hnodes1, hfree1, hiu1, her1, htb1,
    hsz1, hcp1, hperm1⟩ :
      ∃ p, p < st.cache.lru.length ∧
        st.cache.lru.reverse[p]? = some e ∧
        (lruRefresh st.cache e).1.lru.reverse =
          e :: st.cache.lru.reverse.eraseIdx p ∧
        (1 ≤ p → st.cache.lru.reverse[p - 1]? =
          some (lruRefresh st.cache e).2) ∧
        (lruRefresh st.cache e).1.nodes = st.cache.nodes ∧
        (lruRefresh st.cache e).1.free = st.cache.free ∧
        (lruRefresh st.cache e).1.in_use = st.cache.in_use ∧
        (lruRefresh st.cache e).1.erased = st.cache.erased ∧
        (lruRefresh st.cache e).1.table = st.cache.table ∧
        (lruRefresh st.cache e).1.size = st.cache.size ∧
        (lruRefresh st.cache e).1.capacity = st.cache.capacity ∧
        (lruRefresh st.cache e).1.lru.Perm st.cache.lru := by
    have hi0 : st.cache.lru.indexOf e < st.cache.lru.length :=
      List.indexOf_lt_length.mpr helru
    have hgeti0 : st.cache.lru[st.cache.lru.indexOf e]? = some e := by
      rw [List.getElem?_eq_getElem hi0, List.getElem_indexOf hi0]
    cases hnext : nextInList st.cache.lru e with
    | none =>
      have hr : lruRefresh st.cache e = (st.cache, e) := by
        simp [lruRefresh, hnext]
      rw [nextInList_eq_getElem?] at hnext
      have hrev0 : st.cache.lru.reverse[0]? = some e := by
        have hi0top : st.cache.lru.indexOf e = st.cache.lru.length - 1 := by
          by_cases hcon : st.cache.lru.indexOf e + 1 < st.cache.lru.length
          · rw [List.getElem?_eq_getElem hcon] at hnext
            simp at hnext
          · omega
        rw [List.getElem?_reverse hlen1,
          show st.cache.lru.length - 1 - 0 = st.cache.lru.indexOf e by omega]
        exact hgeti0
      refine ⟨0, hlen1, hrev0, ?_, by omega, ?_, ?_, ?_, ?_, ?_, ?_, ?_, ?_⟩
      · rw [hr]
        exact self_eq_cons_eraseIdx_zero _ e hrev0
      all_goals rw [hr]
    | some s =>
      have hr : lruRefresh st.cache e =
          ({ st.cache with lru := st.cache.lru.erase e ++ [e] }, s) := by
        simp [lruRefresh, hnext]
      rw [nextInList_eq_getElem?] at hnext
      have hi1 : st.cache.lru.indexOf e + 1 < st.cache.lru.length := by
        by_cases hcon : st.cache.lru.indexOf e + 1 < st.cache.lru.length
        · exact hcon
        · rw [List.getElem?_eq_none (by omega)] at hnext
          simp at hnext
      refine ⟨st.cache.lru.length - 1 - st.cache.lru.indexOf e, by omega,
        ?_, ?_, ?_, ?_, ?_, ?_, ?_, ?_, ?_, ?_, ?_⟩
      · rw [List.getElem?_reverse (by omega), show st.cache.lru.length - 1 -
          (st.cache.lru.length - 1 - st.cache.lru.indexOf e) =
          st.cache.lru.indexOf e by omega]
        exact hgeti0
      · rw [hr]
        show (st.cache.lru.erase e ++ [e]).reverse = _
        rw [List.reverse_append, erase_eq_eraseIdx, reverse_eraseIdx _ _ hi0]
        rfl
      · intro hp1
        rw [hr]
        show st.cache.lru.reverse[_]? = some s
        rw [List.getElem?_reverse (by omega), show st.cache.lru.length - 1 -
          (st.cache.lru.length - 1 - st.cache.lru.indexOf e - 1) =
          st.cache.lru.indexOf e + 1 by omega]
        exact hnext
      all_goals rw [hr]
      exact (List.perm_append_singleton e _).trans
        (List.perm_cons_erase helru).symm
  set k0 := MetaSizeIdx.sizeIdx ((lruRefresh st.cache e).1.nodes e).value
    with hk0def
  have hk0s : k0 = sIdxOf cfg.min_size cfg.tick p := by
    rw [hk0def]
    show ((lruRefresh st.cache e).1.nodes e).value = _
    rw [hnodes1]
    exact hinv.idx_ok p e hrevp
  set bd1 := if k0 < cfg.num_ticks - 1 ∧ st.boundaries.getD k0 none = some e
    then st.boundaries.set k0 (some (lruRefresh st.cache e).2)
    else st.boundaries with hbd1def
  have hself : p < cfg.min_size + sIdxOf cfg.min_size cfg.tick p * cfg.tick :=
    sIdxOf_self_lt hT p
  have hlenle : st.cache.lru.length ≤ cfg.max_size := by
    have := hinv.count_eq
    omega
  have hbd1_lt : ∀ m, m < cfg.num_ticks - 1 → m ≠ k0 →
      bd1.getD m none =
        st.cache.lru.reverse[cfg.min_size + m * cfg.tick - 1]? := by
    intro m hm hmk
    rw [hbd1def]
    split
    · rw [getD_set_ne _ _ _ _ hmk]
      exact hinv.bnd_ok m hm
    · exact hinv.bnd_ok m hm
  have hbd1_k : k0 < cfg.num_ticks - 1 →
      bd1.getD k0 none = (e :: st.cache.lru.reverse.eraseIdx p)[cfg.min_size +
        k0 * cfg.tick - 1]? := by
    intro hklt
    by_cases hg2 : st.boundaries.getD k0 none = some e
    · have hrevk : st.cache.lru.reverse[cfg.min_size + k0 * cfg.tick - 1]? =
          some e := by
        rw [← hinv.bnd_ok k0 hklt]
        exact hg2
      have hpk : cfg.min_size + k0 * cfg.tick - 1 = p :=
        nodup_getElem?_inj hrevnd hrevk hrevp
      have hp1 : 1 ≤ p := by omega
      rw [hbd1def, if_pos ⟨hklt, hg2⟩,
        getD_set_self _ _ _ (by rw [hinv.bnd_len]; omega), hpk,
        cons_eraseIdx_getElem_lt _ _ _ _ hp1 le_rfl]
      exact (hsucc hp1).symm
    · rw [hbd1def, if_neg (fun hc => hg2 hc.2), hinv.bnd_ok k0 hklt]
      have hplt2 : p < cfg.min_size + k0 * cfg.tick := by
        rw [hk0s]
        exact hself
      have hne : cfg.min_size + k0 * cfg.tick - 1 ≠ p := by
        intro hcon
        apply hg2
        rw [hinv.bnd_ok k0 hklt, hcon]
        exact hrevp
      rw [cons_eraseIdx_getElem_ge _ _ _ _ (by omega)]
  have hNpos : ∀ q, st.cache.lru.reverse[q]? = some e → q = p :=
    fun q hq => nodup_getElem?_inj hrevnd hq hrevp
  have hidx1 : ∀ j e2, j ≠ p → st.cache.lru.reverse[j]? = some e2 →
      ((lruRefresh st.cache e).1.nodes e2).value =
        sIdxOf cfg.min_size cfg.tick j := by
    intro j e2 _ hj
    rw [hnodes1]
    exact hinv.idx_ok j e2 hj
  have hpermrev : st.cache.lru.reverse.Perm
      (e :: st.cache.lru.reverse.eraseIdx p) := by
    obtain ⟨hlt2, he2⟩ := List.getElem?_eq_some.mp hrevp
    have hmem : e ∈ st.cache.lru.reverse := he2 ▸ List.getElem_mem hlt2
    have hip : st.cache.lru.reverse.indexOf e = p := by
      rw [← he2]
      exact List.indexOf_getElem hrevnd p hlt2
    have := List.perm_cons_erase hmem
    rwa [erase_eq_eraseIdx, hip] at this
  have hnd1 : (e :: st.cache.lru.reverse.eraseIdx p).Nodup :=
    hpermrev.nodup_iff.mp hrevnd
  have hlen1' : (e :: st.cache.lru.reverse.eraseIdx p).length =
      st.cache.lru.length := by
    rw [List.length_cons, List.length_eraseIdx, if_pos (by omega)]
    omega
  have hplen : p < (e :: st.cache.lru.reverse.eraseIdx p).length := by
    rw [hlen1']
    exact hplt
  have hkN : k0 ≤ cfg.num_ticks - 1 := by
    rw [hk0s, sIdxOf_le_iff hT, hUT]
    omega
  have hbd1len : bd1.length = cfg.num_ticks - 1 := by
    rw [hbd1def]
    split
    · rw [List.length_set]
      exact hinv.bnd_len
    · exact hinv.bnd_len
  obtain ⟨hidxP, hbdP, hlruP, hfreeP, hiuP, herP, htbP, hszP, hcpP, hbdlenP,
    hfieldsP⟩ :=
    ghost_post_char cfg.min_size cfg.tick cfg.num_ticks hT (by omega)
      (lruRefresh st.cache e).1 bd1 st.cache.lru.reverse e p k0 hk0s hc1rev
      hnd1 hrevnd hplen (by omega) hNpos hidx1 hbd1_lt hbd1_k hbd1len hkN
  have hacc : accessImpl cfg st key hash mode =
      some ({ cache := setSizeIdxOf
                (advanceBoundaries (lruRefresh st.cache e).1 bd1 k0).1 e 0,
              boundaries := (advanceBoundaries (lruRefresh st.cache e).1
                bd1 k0).2,
              caches_stat := st.caches_stat,
              reuse_distances :=
                match mode with
                | AccessMode.DEFAULT => incAt st.reuse_distances k0
                | AccessMode.AS_MISS => st.reuse_distances
                | AccessMode.AS_HIT => incAt st.reuse_distances 0
                | AccessMode.NOOP => st.reuse_distances,
              reuse_count :=
                match mode with
                | AccessMode.NOOP => st.reuse_count
                | _ => st.reuse_count + 1 }, e) := by
    cases mode
    all_goals unfold accessImpl refresh
    all_goals rw [hlk]
    all_goals rfl
  refine ⟨_, e, hacc, ?_, ?_⟩
  · refine ⟨?_, ?_, ?_, ?_, ?_, ?_, ?_, ?_, ?_, ?_, ?_⟩
    · dsimp only
      rw [hiuP, hiu1]
      exact hinv.in_use_nil
    · dsimp only
      rw [hfreeP, hfree1, hlruP]
      exact ((hperm1.append_left st.cache.free).nodup_iff).mpr hinv.nodup
    · dsimp only
      rw [hszP, hsz1, hlruP, hinv.size_eq]
      exact hperm1.length_eq.symm
    · dsimp only
      rw [hcpP, hcp1]
      exact hinv.cap_eq
    · dsimp only
      rw [hfreeP, hfree1, hlruP, hperm1.length_eq]
      exact hinv.count_eq
    · dsimp only
      rw [htbP, htb1, hlruP]
      exact hinv.tperm.trans hperm1.symm
    · dsimp only
      intro a ha b hb hab
      rw [hlruP] at ha hb
      rw [(hfieldsP a).1, (hfieldsP b).1, hnodes1] at hab
      exact hinv.keys_inj a (hperm1.mem_iff.mp ha) b (hperm1.mem_iff.mp hb) hab
    · dsimp only
      intro a ha
      rw [hlruP] at ha
      rw [(hfieldsP a).2.1, (hfieldsP a).1, hnodes1]
      exact hinv.hash_ok a (hperm1.mem_iff.mp ha)
    · dsimp only
      intro j e2 hj
      rw [hlruP, hc1rev] at hj
      exact hidxP j e2 hj
    · dsimp only
      exact hbdlenP
    · dsimp only
      intro m hm
      rw [hlruP, hc1rev]
      exact hbdP m hm
  · have hkeymem : key ∈ keysOf st := by
      rw [keysOf, List.mem_map]
      exact ⟨e, helru, hkey⟩
    unfold StepFacts
    refine ⟨?_, ?_, ?_, ?_⟩
    · dsimp only
      rw [if_pos hkeymem, hlruP, hperm1.length_eq]
    · dsimp only [keysOf]
      intro k2 hk2
      rw [List.mem_map] at hk2
      obtain ⟨a, ha, hka⟩ := hk2
      right
      rw [hlruP] at ha
      rw [List.mem_map]
      refine ⟨a, hperm1.mem_iff.mp ha, ?_⟩
      rw [← hka, (hfieldsP a).1, hnodes1]
    · intro _ k2 hk2
      rw [keysOf, List.mem_map] at hk2
      obtain ⟨a, ha, hka⟩ := hk2
      dsimp only [keysOf]
      rw [List.mem_map]
      refine ⟨a, ?_, ?_⟩
      · rw [hlruP]
        exact hperm1.mem_iff.mpr ha
      · rw [(hfieldsP a).1, hnodes1]
        exact hka
    · dsimp only [keysOf]
      rw [List.mem_map]
      refine ⟨e, ?_, ?_⟩
      · rw [hlruP]
        exact hperm1.mem_iff.mpr helru
      · rw [(hfieldsP e).1, hnodes1]
        exact hkey

theorem ghost_step_free (cfg : GhostConfig) (hv : cfg.Valid)
    (hashFn : Nat → Nat) (st : GhostState Nat)
    (hinv : GInv cfg hashFn st) (key hash : Nat) (mode : AccessMode)
    (hh : hash = hashFn key % 2 ^ 32)
    (hlk : tableLookup st.cache key hash = none)
    (f : Nat) (fs : List Nat) (hfree : st.cache.free = f :: fs) :
    ∃ st' h, accessImpl cfg st key hash mode = some (st', h) ∧
      GInv cfg hashFn st' ∧ StepFacts cfg st st' key := by
  obtain ⟨hT, hL, hUT, hNt⟩ := hv
  have hlrund : st.cache.lru.Nodup := (List.nodup_append.mp hinv.nodup).2.1
  have hrevnd : st.cache.lru.reverse.Nodup := List.nodup_reverse.mpr hlrund
  have hrevlen : st.cache.lru.reverse.length = st.cache.lru.length :=
    List.length_reverse _
  have hfnotin : f ∉ st.cache.lru := by
    intro hcon
    have hdisj := (List.nodup_append.mp hinv.nodup).2.2
    exact hdisj (hfree ▸ List.mem_cons_self f fs) hcon
  have hlenlt : st.cache.lru.length < cfg.max_size := by
    have := hinv.count_eq
    rw [hfree] at this
    simp [List.length_cons] at this
    omega
  have hmiss : ∀ a ∈ st.cache.lru, (st.cache.nodes a).key ≠ key := by
    intro a ha hcon
    have hnone := List.find?_eq_none.mp hlk a (hinv.tperm.mem_iff.mpr ha)
    apply hnone
    rw [Bool.and_eq_true, beq_iff_eq, beq_iff_eq]
    exact ⟨by rw [hinv.hash_ok a ha, hcon, hh], hcon⟩
  set c1 : LRU Nat :=
    { st.cache with
      nodes := updNodes st.cache.nodes f
        { key := key, hash := hash, refs := 1,
          value := (st.cache.nodes f).value },
      free := fs,
      table := f :: st.cache.table,
      lru := st.cache.lru ++ [f],
      size := st.cache.size + 1 } with hc1def
  have hrefresh : refresh st.cache key hash = (c1, some f, none) := by
    unfold refresh allocNode
    rw [hlk, hfree]
    rfl
  have hc1nodes : ∀ x, c1.nodes x =
      if x = f then
        { key := key, hash := hash, refs := 1,
          value := (st.cache.nodes f).value }
      else st.cache.nodes x := by
    intro x
    rfl
  set k0 : Nat := if c1.size > cfg.min_size
    then (c1.size - cfg.min_size + cfg.tick - 1) / cfg.tick else 0 with hk0def
  have hsz1 : c1.size = st.cache.lru.length + 1 := by
    rw [show c1.size = st.cache.size + 1 from rfl, hinv.size_eq]
  have hk0s : k0 = sIdxOf cfg.min_size cfg.tick st.cache.lru.length := by
    rw [hk0def, hsz1, code_k_eq_sIdxOf _ (by omega), Nat.add_sub_cancel]
  set bd1 : List (Option Nat) := if k0 < cfg.num_ticks - 1 ∧
      c1.size = k0 * cfg.tick + cfg.min_size
    then st.boundaries.set k0 c1.lru.head? else st.boundaries with hbd1def
  have heraseP : st.cache.lru.reverse.eraseIdx st.cache.lru.length =
      st.cache.lru.reverse := by
    rw [← hrevlen]
    exact eraseIdx_self_length _
  have hc1rev : c1.lru.reverse =
      f :: st.cache.lru.reverse.eraseIdx st.cache.lru.length := by
    rw [heraseP, show c1.lru = st.cache.lru ++ [f] from rfl,
      List.reverse_append]
    rfl
  have hNpos : ∀ q, st.cache.lru.reverse[q]? = some f → q =
      st.cache.lru.length := by
    intro q hq
    exfalso
    obtain ⟨hlt2, he2⟩ := List.getElem?_eq_some.mp hq
    exact hfnotin (List.mem_reverse.mp (he2 ▸ List.getElem_mem hlt2))
  have hidx1 : ∀ j e2, j ≠ st.cache.lru.length →
      st.cache.lru.reverse[j]? = some e2 →
      (c1.nodes e2).value = sIdxOf cfg.min_size cfg.tick j := by
    intro j e2 _ hj
    have he2f : e2 ≠ f := by
      intro hcon
      apply hfnotin
      apply List.mem_reverse.mp
      obtain ⟨hlt2, he2⟩ := List.getElem?_eq_some.mp hj
      rw [← hcon, ← he2]
      exact List.getElem_mem hlt2
    rw [hc1nodes, if_neg he2f]
    exact hinv.idx_ok j e2 hj
  have hbd1_lt : ∀ m, m < cfg.num_ticks - 1 → m ≠ k0 →
      bd1.getD m none =
        st.cache.lru.reverse[cfg.min_size + m * cfg.tick - 1]? := by
    intro m hm hmk
    rw [hbd1def]
    split
    · rw [getD_set_ne _ _ _ _ hmk]
      exact hinv.bnd_ok m hm
    · exact hinv.bnd_ok m hm
  have hrev0 : 0 < st.cache.lru.length →
      st.cache.lru.reverse[st.cache.lru.length - 1]? = st.cache.lru[0]? := by
    intro h0
    rw [List.getElem?_reverse (by omega)]
    congr 1
    omega
  have hbd1_k : k0 < cfg.num_ticks - 1 →
      bd1.getD k0 none = (f :: st.cache.lru.reverse.eraseIdx
        st.cache.lru.length)[cfg.min_size + k0 * cfg.tick - 1]? := by
    intro hklt
    rw [heraseP]
    by_cases hg : c1.size = k0 * cfg.tick + cfg.min_size
    · have hq : cfg.min_size + k0 * cfg.tick - 1 = st.cache.lru.length := by
        omega
      have h0 : 0 < st.cache.lru.length := by omega
      obtain ⟨n, hn⟩ : ∃ n, st.cache.lru.length = n + 1 :=
        ⟨st.cache.lru.length - 1, by omega⟩
      rw [hbd1def, if_pos ⟨hklt, hg⟩,
        getD_set_self _ _ _ (by rw [hinv.bnd_len]; omega), hq, hn,
        List.getElem?_cons_succ,
        show c1.lru.head? = (st.cache.lru ++ [f])[0]? from
          List.head?_eq_getElem? _,
        List.getElem?_append, if_pos (by omega), ← hrev0 h0]
      congr 1
      omega
    · rw [hbd1def, if_neg (fun hc => hg hc.2), hinv.bnd_ok k0 hklt]
      have hlen0 : st.cache.lru.length < cfg.min_size + k0 * cfg.tick := by
        have := sIdxOf_self_lt (L := cfg.min_size) hT st.cache.lru.length
        rw [← hk0s] at this
        exact this
      have hqne : cfg.min_size + k0 * cfg.tick - 1 ≠ st.cache.lru.length := by
        intro hcon
        omega
      rw [List.getElem?_eq_none (by omega),
        List.getElem?_eq_none (by rw [List.length_cons, hrevlen]; omega)]
  have hnd1 : (f :: st.cache.lru.reverse.eraseIdx
      st.cache.lru.length).Nodup := by
    rw [heraseP, List.nodup_cons]
    exact ⟨fun hcon => hfnotin (List.mem_reverse.mp hcon), hrevnd⟩
  have hplen : st.cache.lru.length < (f :: st.cache.lru.reverse.eraseIdx
      st.cache.lru.length).length := by
    rw [heraseP, List.length_cons, hrevlen]
    omega
  have hkN : k0 ≤ cfg.num_ticks - 1 := by
    rw [hk0s, sIdxOf_le_iff hT, hUT]
    omega
  have hbd1len : bd1.length = cfg.num_ticks - 1 := by
    rw [hbd1def]
    split
    · rw [List.length_set]
      exact hinv.bnd_len
    · exact hinv.bnd_len
  obtain ⟨hidxP, hbdP, hlruP, hfreeP, hiuP, herP, htbP, hszP, hcpP, hbdlenP,
    hfieldsP⟩ :=
    ghost_post_char cfg.min_size cfg.tick cfg.num_ticks hT (by omega)
      c1 bd1 st.cache.lru.reverse f st.cache.lru.length k0 hk0s hc1rev
      hnd1 hrevnd hplen (by omega) hNpos hidx1 hbd1_lt hbd1_k hbd1len hkN
  have hacc : accessImpl cfg st key hash mode =
      some ({ cache := setSizeIdxOf (advanceBoundaries c1 bd1 k0).1 f 0,
              boundaries := (advanceBoundaries c1 bd1 k0).2,
              caches_stat := st.caches_stat,
              reuse_distances :=
                match mode with
                | AccessMode.DEFAULT => st.reuse_distances
                | AccessMode.AS_MISS => st.reuse_distances
                | AccessMode.AS_HIT => incAt st.reuse_distances 0
                | AccessMode.NOOP => st.reuse_distances,
              reuse_count :=
                match mode with
                | AccessMode.NOOP => st.reuse_count
                | _ => st.reuse_count + 1 }, f) := by
    cases mode
    all_goals unfold accessImpl
    all_goals rw [hrefresh]
    all_goals rfl
  have hCk : ∀ x, ((setSizeIdxOf (advanceBoundaries c1 bd1 k0).1 f 0).nodes
      x).key = if x = f then key else (st.cache.nodes x).key := by
    intro x
    rw [(hfieldsP x).1, hc1nodes]
    split
    all_goals rfl
  have hChash : ∀ x, ((setSizeIdxOf (advanceBoundaries c1 bd1 k0).1 f
      0).nodes x).hash = if x = f then hash else (st.cache.nodes x).hash := by
    intro x
    rw [(hfieldsP x).2.1, hc1nodes]
    split
    all_goals rfl
  refine ⟨_, f, hacc, ?_, ?_⟩
  · refine ⟨?_, ?_, ?_, ?_, ?_, ?_, ?_, ?_, ?_, ?_, ?_⟩
    · dsimp only
      rw [hiuP]
      exact hinv.in_use_nil
    · dsimp only
      rw [hfreeP, hlruP, show c1.free = fs from rfl,
        show c1.lru = st.cache.lru ++ [f] from rfl]
      have h0 : ((f :: fs) ++ st.cache.lru).Nodup := by
        rw [← hfree]
        exact hinv.nodup
      have hp : (fs ++ (st.cache.lru ++ [f])).Perm
          ((f :: fs) ++ st.cache.lru) := by
        rw [← List.append_assoc]
        exact List.perm_append_singleton f _
      exact hp.nodup_iff.mpr h0
    · dsimp only
      rw [hszP, hlruP, hsz1, show c1.lru = st.cache.lru ++ [f] from rfl,
        List.length_append]
      rfl
    · dsimp only
      rw [hcpP]
      exact hinv.cap_eq
    · dsimp only
      rw [hfreeP, hlruP, show c1.free = fs from rfl,
        show c1.lru = st.cache.lru ++ [f] from rfl, List.length_append]
      have := hinv.count_eq
      rw [hfree] at this
      simp only [List.length_cons] at this
      simp only [List.length_singleton]
      omega
    · dsimp only
      rw [htbP, hlruP, show c1.table = f :: st.cache.table from rfl,
        show c1.lru = st.cache.lru ++ [f] from rfl]
      exact (hinv.tperm.cons f).trans
        (List.perm_append_singleton f st.cache.lru).symm
    · dsimp only
      intro a ha b hb hab
      rw [hlruP, show c1.lru = st.cache.lru ++ [f] from rfl,
        List.mem_append] at ha hb
      rw [hCk a, hCk b] at hab
      rcases ha with ha | ha
      · rcases hb with hb | hb
        · rw [if_neg (fun hc => hfnotin (by rw [← hc]; exact ha)),
            if_neg (fun hc => hfnotin (by rw [← hc]; exact hb))] at hab
          exact hinv.keys_inj a ha b hb hab
        · have hbf : b = f := by simpa using hb
          rw [if_neg (fun hc => hfnotin (by rw [← hc]; exact ha)), if_pos hbf] at hab
          exact absurd hab (hmiss a ha)
      · have haf : a = f := by simpa using ha
        rcases hb with hb | hb
        · rw [if_pos haf, if_neg (fun hc => hfnotin (by rw [← hc]; exact hb))] at hab
          exact absurd hab.symm (hmiss b hb)
        · have hbf : b = f := by simpa using hb
          rw [haf, hbf]
    · dsimp only
      intro a ha
      rw [hlruP, show c1.lru = st.cache.lru ++ [f] from rfl,
        List.mem_append] at ha
      rw [hCk a, hChash a]
      rcases ha with ha | ha
      · rw [if_neg (fun hc => hfnotin (by rw [← hc]; exact ha)),
          if_neg (fun hc => hfnotin (by rw [← hc]; exact ha))]
        exact hinv.hash_ok a ha
      · have haf : a = f := by simpa using ha
        rw [if_pos haf, if_pos haf, hh]
    · dsimp only
      intro j e2 hj
      rw [hlruP, hc1rev] at hj
      exact hidxP j e2 hj
    · dsimp only
      exact hbdlenP
    · dsimp only
      intro m hm
      rw [hlruP, hc1rev]
      exact hbdP m hm
  · have hkeynot : key ∉ keysOf st := by
      intro hcon
      rw [keysOf, List.mem_map] at hcon
      obtain ⟨a, ha, hka⟩ := hcon
      exact hmiss a ha hka
    unfold StepFacts
    refine ⟨?_, ?_, ?_, ?_⟩
    · dsimp only
      rw [if_neg hkeynot, hlruP, show c1.lru = st.cache.lru ++ [f] from rfl,
        List.length_append, Nat.min_eq_left (by omega)]
      rfl
    · dsimp only [keysOf]
      intro k2 hk2
      rw [List.mem_map] at hk2
      obtain ⟨a, ha, hka⟩ := hk2
      rw [hlruP, show c1.lru = st.cache.lru ++ [f] from rfl,
        List.mem_append] at ha
      rw [hCk a] at hka
      rcases ha with ha | ha
      · right
        rw [List.mem_map]
        rw [if_neg (fun hc => hfnotin (by rw [← hc]; exact ha))] at hka
        exact ⟨a, ha, hka⟩
      · left
        have haf : a = f := by simpa using ha
        rw [if_pos haf] at hka
        exact hka.symm
    · intro _ k2 hk2
      rw [keysOf, List.mem_map] at hk2
      obtain ⟨a, ha, hka⟩ := hk2
      dsimp only [keysOf]
      rw [List.mem_map]
      refine ⟨a, ?_, ?_⟩
      · rw [hlruP, show c1.lru = st.cache.lru ++ [f] from rfl,
          List.mem_append]
        exact Or.inl ha
      · rw [hCk a, if_neg (fun hc => hfnotin (by rw [← hc]; exact ha))]
        exact hka
    · dsimp only [keysOf]
      rw [List.mem_map]
      refine ⟨f, ?_, ?_⟩
      · rw [hlruP, show c1.lru = st.cache.lru ++ [f] from rfl,
          List.mem_append]
        right
        exact List.mem_singleton_self f
      · rw [hCk f, if_pos rfl]

theorem ghost_step_evict (cfg : GhostConfig) (hv : cfg.Valid)
    (hashFn : Nat → Nat) (st : GhostState Nat)
    (hinv : GInv cfg hashFn st) (key hash : Nat) (mode : AccessMode)
    (hh : hash = hashFn key % 2 ^ 32)
    (hlk : tableLookup st.cache key hash = none)
    (hfree : st.cache.free = [])
    (o : Nat) (lrest : List Nat) (hlru : st.cache.lru = o :: lrest) :
    ∃ st' h, accessImpl cfg st key hash mode = some (st', h) ∧
      GInv cfg hashFn st' ∧ StepFacts cfg st st' key := by
  obtain ⟨hT, hL, hUT, hNt⟩ := hv
  have hlrund : st.cache.lru.Nodup := by
    have h := hinv.nodup
    rw [hfree] at h
    simpa using h
  have hrevnd : st.cache.lru.reverse.Nodup := List.nodup_reverse.mpr hlrund
  have hrevlen : st.cache.lru.reverse.length = st.cache.lru.length :=
    List.length_reverse _
  have hlen : st.cache.lru.length = lrest.length + 1 := by
    rw [hlru]
    rfl
  have hfull : st.cache.lru.length = cfg.max_size := by
    have := hinv.count_eq
    rw [hfree] at this
    simpa using this
  have honl : o ∉ lrest := by
    have h := hlrund
    rw [hlru, List.nodup_cons] at h
    exact h.1
  have hlrestnd : lrest.Nodup := by
    have h := hlrund
    rw [hlru, List.nodup_cons] at h
    exact h.2
  have holru : o ∈ st.cache.lru := by
    rw [hlru]
    exact List.mem_cons_self o lrest
  have hmiss : ∀ a ∈ st.cache.lru, (st.cache.nodes a).key ≠ key := by
    intro a ha hcon
    have hnone := List.find?_eq_none.mp hlk a (hinv.tperm.mem_iff.mpr ha)
    apply hnone
    rw [Bool.and_eq_true, beq_iff_eq, beq_iff_eq]
    exact ⟨by rw [hinv.hash_ok a ha, hcon, hh], hcon⟩
  set c1 : LRU Nat :=
    { st.cache with
      nodes := updNodes st.cache.nodes o
        { key := key, hash := hash, refs := 1,
          value := (st.cache.nodes o).value },
      lru := lrest ++ [o],
      free := [],
      table := o :: (st.cache.table.eraseP fun a =>
        (st.cache.nodes a).hash == (st.cache.nodes o).hash &&
        (st.cache.nodes a).key == (st.cache.nodes o).key),
      size := st.cache.size - 1 + 1 } with hc1def
  have hrefresh : refresh st.cache key hash = (c1, some o, none) := by
    unfold refresh allocNode
    rw [hlk, hfree, hlru]
    rfl
  have hc1nodes : ∀ x, c1.nodes x =
      if x = o then
        { key := key, hash := hash, refs := 1,
          value := (st.cache.nodes o).value }
      else st.cache.nodes x := by
    intro x
    rfl
  set k0 : Nat := if c1.size > cfg.min_size
    then (c1.size - cfg.min_size + cfg.tick - 1) / cfg.tick else 0 with hk0def
  have hsz1 : c1.size = st.cache.lru.length := by
    have h : c1.size = st.cache.size - 1 + 1 := rfl
    rw [hinv.size_eq] at h
    omega
  have hk0s : k0 = sIdxOf cfg.min_size cfg.tick (st.cache.lru.length - 1) := by
    rw [hk0def, hsz1, code_k_eq_sIdxOf _ (by omega)]
  have hkNeq : k0 = cfg.num_ticks - 1 := by
    rw [hk0s, show st.cache.lru.length - 1 =
      cfg.min_size + (cfg.num_ticks - 1) * cfg.tick - 1 from by omega,
      sIdxOf_boundary hT (by omega)]
  set bd1 : List (Option Nat) := if k0 < cfg.num_ticks - 1 ∧
      c1.size = k0 * cfg.tick + cfg.min_size
    then st.boundaries.set k0 c1.lru.head? else st.boundaries with hbd1def
  have hbd1eq : bd1 = st.boundaries := by
    rw [hbd1def, if_neg (fun hc => absurd hc.1 (by omega))]
  have hrevshape : st.cache.lru.reverse = lrest.reverse ++ [o] := by
    rw [hlru, List.reverse_cons]
  have heraseP : st.cache.lru.reverse.eraseIdx (st.cache.lru.length - 1) =
      lrest.reverse := by
    rw [hrevshape, show st.cache.lru.length - 1 = lrest.reverse.length from
      by rw [List.length_reverse]; omega]
    exact eraseIdx_concat _ _
  have hrevp : st.cache.lru.reverse[st.cache.lru.length - 1]? = some o := by
    rw [hrevshape, List.getElem?_append,
      if_neg (by rw [List.length_reverse]; omega),
      show st.cache.lru.length - 1 - lrest.reverse.length = 0 from
        by rw [List.length_reverse]; omega]
    rfl
  have hc1rev : c1.lru.reverse =
      o :: st.cache.lru.reverse.eraseIdx (st.cache.lru.length - 1) := by
    rw [heraseP, show c1.lru = lrest ++ [o] from rfl, List.reverse_append]
    rfl
  have hNpos : ∀ q, st.cache.lru.reverse[q]? = some o →
      q = st.cache.lru.length - 1 :=
    fun q hq => nodup_getElem?_inj hrevnd hq hrevp
  have hidx1 : ∀ j e2, j ≠ st.cache.lru.length - 1 →
      st.cache.lru.reverse[j]? = some e2 →
      (c1.nodes e2).value = sIdxOf cfg.min_size cfg.tick j := by
    intro j e2 hjp hj
    have he2o : e2 ≠ o := by
      intro hcon
      rw [hcon] at hj
      exact hjp (hNpos j hj)
    rw [hc1nodes, if_neg he2o]
    exact hinv.idx_ok j e2 hj
  have hbd1_lt : ∀ m, m < cfg.num_ticks - 1 → m ≠ k0 →
      bd1.getD m none =
        st.cache.lru.reverse[cfg.min_size + m * cfg.tick - 1]? := by
    intro m hm _
    rw [hbd1eq]
    exact hinv.bnd_ok m hm
  have hbd1_k : k0 < cfg.num_ticks - 1 →
      bd1.getD k0 none = (o :: st.cache.lru.reverse.eraseIdx
        (st.cache.lru.length - 1))[cfg.min_size + k0 * cfg.tick - 1]? :=
    fun hklt => absurd hklt (by omega)
  have hnd1 : (o :: st.cache.lru.reverse.eraseIdx
      (st.cache.lru.length - 1)).Nodup := by
    rw [heraseP, List.nodup_cons]
    exact ⟨fun hcon => honl (List.mem_reverse.mp hcon),
      List.nodup_reverse.mpr hlrestnd⟩
  have hplen : st.cache.lru.length - 1 < (o :: st.cache.lru.reverse.eraseIdx
      (st.cache.lru.length - 1)).length := by
    rw [heraseP, List.length_cons, List.length_reverse]
    omega
  have hkN : k0 ≤ cfg.num_ticks - 1 := by omega
  have hbd1len : bd1.length = cfg.num_ticks - 1 := by
    rw [hbd1eq]
    exact hinv.bnd_len
  obtain ⟨hidxP, hbdP, hlruP, hfreeP, hiuP, herP, htbP, hszP, hcpP, hbdlenP,
    hfieldsP⟩ :=
    ghost_post_char cfg.min_size cfg.tick cfg.num_ticks hT (by omega)
      c1 bd1 st.cache.lru.reverse o (st.cache.lru.length - 1) k0 hk0s hc1rev
      hnd1 hrevnd hplen (by omega) hNpos hidx1 hbd1_lt hbd1_k hbd1len hkN
  have hacc : accessImpl cfg st key hash mode =
      some ({ cache := setSizeIdxOf (advanceBoundaries c1 bd1 k0).1 o 0,
              boundaries := (advanceBoundaries c1 bd1 k0).2,
              caches_stat := st.caches_stat,
              reuse_distances :=
                match mode with
                | AccessMode.DEFAULT => st.reuse_distances
                | AccessMode.AS_MISS => st.reuse_distances
                | AccessMode.AS_HIT => incAt st.reuse_distances 0
                | AccessMode.NOOP => st.reuse_distances,
              reuse_count :=
                match mode with
                | AccessMode.NOOP => st.reuse_count
                | _ => st.reuse_count + 1 }, o) := by
    cases mode
    all_goals unfold accessImpl
    all_goals rw [hrefresh]
    all_goals rfl
  have hCk : ∀ x, ((setSizeIdxOf (advanceBoundaries c1 bd1 k0).1 o 0).nodes
      x).key = if x = o then key else (st.cache.nodes x).key := by
    intro x
    rw [(hfieldsP x).1, hc1nodes]
    split
    all_goals rfl
  have hChash : ∀ x, ((setSizeIdxOf (advanceBoundaries c1 bd1 k0).1 o
      0).nodes x).hash = if x = o then hash else (st.cache.nodes x).hash := by
    intro x
    rw [(hfieldsP x).2.1, hc1nodes]
    split
    all_goals rfl
  have hmemc1 : ∀ a, a ∈ lrest → a ∈ st.cache.lru := by
    intro a ha
    rw [hlru]
    exact List.mem_cons_of_mem o ha
  refine ⟨_, o, hacc, ?_, ?_⟩
  · refine ⟨?_, ?_, ?_, ?_, ?_, ?_, ?_, ?_, ?_, ?_, ?_⟩
    · dsimp only
      rw [hiuP]
      exact hinv.in_use_nil
    · dsimp only
      rw [hfreeP, hlruP, show c1.free = ([] : List Nat) from rfl,
        show c1.lru = lrest ++ [o] from rfl]
      have hol : (o :: lrest).Nodup := by
        rw [← hlru]
        exact hlrund
      simpa using (List.perm_append_singleton o lrest).nodup_iff.mpr hol
    · dsimp only
      rw [hszP, hlruP, hsz1, show c1.lru = lrest ++ [o] from rfl,
        List.length_append, List.length_singleton, hlen]
    · dsimp only
      rw [hcpP]
      exact hinv.cap_eq
    · dsimp only
      rw [hfreeP, hlruP, show c1.free = ([] : List Nat) from rfl,
        show c1.lru = lrest ++ [o] from rfl, List.length_append,
        List.length_singleton]
      simp only [List.length_nil]
      omega
    · dsimp only
      rw [htbP, hlruP, show c1.table = o :: (st.cache.table.eraseP fun a =>
          (st.cache.nodes a).hash == (st.cache.nodes o).hash &&
          (st.cache.nodes a).key == (st.cache.nodes o).key) from rfl,
        show c1.lru = lrest ++ [o] from rfl]
      have hpredo : ∀ a ∈ st.cache.table,
          (((st.cache.nodes a).hash == (st.cache.nodes o).hash &&
            (st.cache.nodes a).key == (st.cache.nodes o).key) = true ↔
            a = o) := by
        intro a ha
        constructor
        · intro hp
          rw [Bool.and_eq_true, beq_iff_eq, beq_iff_eq] at hp
          exact hinv.keys_inj a (hinv.tperm.mem_iff.mp ha) o holru hp.2
        · intro hq
          subst hq
          rw [Bool.and_eq_true, beq_iff_eq, beq_iff_eq]
          exact ⟨rfl, rfl⟩
      rw [eraseP_eq_erase _ _ o hpredo]
      have h1 : (st.cache.table.erase o).Perm lrest := by
        have h2 := hinv.tperm.erase o
        rw [hlru, List.erase_cons_head] at h2
        exact h2
      exact (h1.cons o).trans (List.perm_append_singleton o lrest).symm
    · dsimp only
      intro a ha b hb hab
      rw [hlruP, show c1.lru = lrest ++ [o] from rfl, List.mem_append]
        at ha hb
      rw [hCk a, hCk b] at hab
      rcases ha with ha | ha
      · rcases hb with hb | hb
        · rw [if_neg (fun hc => honl (by rw [← hc]; exact ha)),
            if_neg (fun hc => honl (by rw [← hc]; exact hb))] at hab
          exact hinv.keys_inj a (hmemc1 a ha) b (hmemc1 b hb) hab
        · have hbf : b = o := by simpa using hb
          rw [if_neg (fun hc => honl (by rw [← hc]; exact ha)),
            if_pos hbf] at hab
          exact absurd hab (hmiss a (hmemc1 a ha))
      · have haf : a = o := by simpa using ha
        rcases hb with hb | hb
        · rw [if_pos haf,
            if_neg (fun hc => honl (by rw [← hc]; exact hb))] at hab
          exact absurd hab.symm (hmiss b (hmemc1 b hb))
        · have hbf : b = o := by simpa using hb
          rw [haf, hbf]
    · dsimp only
      intro a ha
      rw [hlruP, show c1.lru = lrest ++ [o] from rfl, List.mem_append] at ha
      rw [hCk a, hChash a]
      rcases ha with ha | ha
      · rw [if_neg (fun hc => honl (by rw [← hc]; exact ha)),
          if_neg (fun hc => honl (by rw [← hc]; exact ha))]
        exact hinv.hash_ok a (hmemc1 a ha)
      · have haf : a = o := by simpa using ha
        rw [if_pos haf, if_pos haf, hh]
    · dsimp only
      intro j e2 hj
      rw [hlruP, hc1rev] at hj
      exact hidxP j e2 hj
    · dsimp only
      exact hbdlenP
    · dsimp only
      intro m hm
      rw [hlruP, hc1rev]
      exact hbdP m hm
  · have hkeynot : key ∉ keysOf st := by
      intro hcon
      rw [keysOf, List.mem_map] at hcon
      obtain ⟨a, ha, hka⟩ := hcon
      exact hmiss a ha hka
    unfold StepFacts
    refine ⟨?_, ?_, ?_, ?_⟩
    · dsimp only
      rw [if_neg hkeynot, hlruP, show c1.lru = lrest ++ [o] from rfl,
        List.length_append, List.length_singleton,
        Nat.min_eq_right (by omega)]
      omega
    · dsimp only [keysOf]
      intro k2 hk2
      rw [List.mem_map] at hk2
      obtain ⟨a, ha, hka⟩ := hk2
      rw [hlruP, show c1.lru = lrest ++ [o] from rfl, List.mem_append] at ha
      rw [hCk a] at hka
      rcases ha with ha | ha
      · right
        rw [List.mem_map]
        rw [if_neg (fun hc => honl (by rw [← hc]; exact ha))] at hka
        exact ⟨a, hmemc1 a ha, hka⟩
      · left
        have haf : a = o := by simpa using ha
        rw [if_pos haf] at hka
        exact hka.symm
    · intro hyp k2 hk2
      rcases hyp with hyp | hyp
      · exact absurd hyp hkeynot
      · exact absurd hyp (by omega)
    · dsimp only [keysOf]
      rw [List.mem_map]
      refine ⟨o, ?_, ?_⟩
      · rw [hlruP, show c1.lru = lrest ++ [o] from rfl, List.mem_append]
        right
        exact List.mem_singleton_self o
      · rw [hCk o, if_pos rfl]

theorem ghost_access_step (cfg : GhostConfig) (hv : cfg.Valid)
    (hashFn : Nat → Nat) (st : GhostState Nat)
    (hinv : GInv cfg hashFn st) (key : Nat) (mode : AccessMode) :
    ∃ st' h, accessImpl cfg st key (hashFn key % 2 ^ 32) mode =
        some (st', h) ∧
      GInv cfg hashFn st' ∧ StepFacts cfg st st' key := by
  cases hlk : tableLookup st.cache key (hashFn key % 2 ^ 32) with
  | some e => exact ghost_step_hit cfg hv hashFn st hinv key _ mode e hlk
  | none =>
    cases hfree : st.cache.free with
    | cons f fs =>
      exact ghost_step_free cfg hv hashFn st hinv key _ mode rfl hlk f fs hfree
    | nil =>
      cases hlru : st.cache.lru with
      | cons o lrest =>
        exact ghost_step_evict cfg hv hashFn st hinv key _ mode rfl hlk hfree
          o lrest hlru
      | nil =>
        exfalso
        obtain ⟨hT, hL, hUT, hNt⟩ := hv
        have := hinv.count_eq
        rw [hfree, hlru] at this
        simp at this
        omega

theorem ghost_init_inv (cfg : GhostConfig) (hashFn : Nat → Nat) :
    GInv cfg hashFn (initGhost cfg 0) := by
  refine ⟨rfl, ?_, rfl, rfl, ?_, ?_, ?_, ?_, ?_, ?_, ?_⟩
  · show (List.range cfg.max_size ++ []).Nodup
    rw [List.append_nil]
    exact List.nodup_range _
  · show (List.range cfg.max_size).length + ([] : List Nat).length = _
    simp
  · exact List.Perm.refl []
  · intro a ha
    exact absurd ha (List.not_mem_nil a)
  · intro a ha
    exact absurd ha (List.not_mem_nil a)
  · intro j e hj
    simp [initGhost, initLRU] at hj
  · show (List.replicate (cfg.num_ticks - 1) (none : Option Nat)).length = _
    simp
  · intro k hk
    show (List.replicate (cfg.num_ticks - 1) (none : Option Nat)).getD k none
      = (([] : List Nat).reverse)[cfg.min_size + k * cfg.tick - 1]?
    rw [List.getD_eq_getElem?_getD, List.getElem?_replicate, if_pos hk]
    simp

theorem ghost_run_inv (cfg : GhostConfig) (hv : cfg.Valid)
    (hashFn : Nat → Nat) :
    ∀ (seq : List (Nat × AccessMode)) (S : List Nat) (st : GhostState Nat),
      GInv cfg hashFn st →
      st.cache.lru.length = min S.toFinset.card cfg.max_size →
      (∀ k2 ∈ keysOf st, k2 ∈ S) →
      (st.cache.lru.length < cfg.max_size → ∀ k2 ∈ S, k2 ∈ keysOf st) →
      ∀ st', runAccesses cfg hashFn st seq = some st' →
        GInv cfg hashFn st' ∧
        st'.cache.lru.length =
          min (S ++ seq.map Prod.fst).toFinset.card cfg.max_size ∧
        (∀ k2 ∈ keysOf st', k2 ∈ S ++ seq.map Prod.fst) ∧
        (st'.cache.lru.length < cfg.max_size →
          ∀ k2 ∈ S ++ seq.map Prod.fst, k2 ∈ keysOf st') := by
  intro seq
  induction seq with
  | nil =>
    intro S st hinv hlen hsub1 hsub2 st' hrun
    have hst : st = st' := Option.some.inj hrun
    subst hst
    rw [List.map_nil, List.append_nil]
    exact ⟨hinv, hlen, hsub1, hsub2⟩
  | cons x rest ih =>
    obtain ⟨key, mode⟩ := x
    intro S st hinv hlen hsub1 hsub2 st' hrun
    obtain ⟨st1, h1, hacc, hinv1, hsf⟩ :=
      ghost_access_step cfg hv hashFn st hinv key mode
    have haccess : access cfg hashFn st key mode = some (st1, h1) := hacc
    simp only [runAccesses, haccess] at hrun
    obtain ⟨hlenF, hmemF, hpresF, hkeyF⟩ := hsf
    have hmemiff : (key ∈ keysOf st) ∨ ¬(key ∈ keysOf st) := em _
    -- the four invariant inputs at st1 over seen list S ++ [key]
    have hlen1' : st1.cache.lru.length =
        min (S ++ [key]).toFinset.card cfg.max_size := by
      by_cases hkm : key ∈ keysOf st
      · rw [toFinset_append_mem S key (hsub1 key hkm)]
        rw [if_pos hkm] at hlenF
        omega
      · rw [if_neg hkm] at hlenF
        by_cases hlt : st.cache.lru.length < cfg.max_size
        · have hknS : key ∉ S := fun hc => hkm (hsub2 hlt key hc)
          rw [toFinset_append_not_mem S key hknS]
          omega
        · have hcle := toFinset_append_card_le S key
          omega
    have hsub1'' : ∀ k2 ∈ keysOf st1, k2 ∈ S ++ [key] := by
      intro k2 hk2
      rcases hmemF k2 hk2 with h | h
      · rw [h]
        exact List.mem_append_right S (List.mem_singleton_self key)
      · exact List.mem_append_left [key] (hsub1 k2 h)
    have hsub2'' : st1.cache.lru.length < cfg.max_size →
        ∀ k2 ∈ S ++ [key], k2 ∈ keysOf st1 := by
      intro hlt1 k2 hk2
      have hltor : key ∈ keysOf st ∨ st.cache.lru.length < cfg.max_size := by
        by_cases hkm : key ∈ keysOf st
        · exact Or.inl hkm
        · rw [if_neg hkm] at hlenF
          right
          omega
      rcases List.mem_append.mp hk2 with h | h
      · have hlt : st.cache.lru.length < cfg.max_size := by
          by_cases hkm : key ∈ keysOf st
          · rw [if_pos hkm] at hlenF
            omega
          · rw [if_neg hkm] at hlenF
            omega
        exact hpresF hltor k2 (hsub2 hlt k2 h)
      · have hk2key : k2 = key := by simpa using h
        rw [hk2key]
        exact hkeyF
    have hfinal := ih (S ++ [key]) st1 hinv1 hlen1' hsub1'' hsub2'' st' hrun
    simp only [List.map_cons]
    rw [List.append_cons]
    exact hfinal

theorem find_oldest (cfg : GhostConfig) (hv : cfg.Valid) (hashFn : Nat → Nat)
    (st : GhostState Nat) (hinv : GInv cfg hashFn st) (k : Nat)
    (hk : k < cfg.num_ticks - 1)
    (hlen : cfg.min_size + k * cfg.tick ≤ st.cache.lru.length) :
    st.cache.lru.find? (fun a => (st.cache.nodes a).value == k) =
      st.cache.lru.reverse[cfg.min_size + k * cfg.tick - 1]? := by
  obtain ⟨hT, hL, hUT, hNt⟩ := hv
  have hq : cfg.min_size + k * cfg.tick - 1 < st.cache.lru.length := by omega
  set i0 := st.cache.lru.length - 1 - (cfg.min_size + k * cfg.tick - 1)
    with hi0def
  have hi0lt : i0 < st.cache.lru.length := by omega
  have hrevq2 : st.cache.lru.reverse[cfg.min_size + k * cfg.tick - 1]? =
      some st.cache.lru[i0] := by
    rw [List.getElem?_reverse (by omega)]
    exact List.getElem?_eq_getElem (by omega)
  have hvalb : (st.cache.nodes st.cache.lru[i0]).value = k := by
    have hval := hinv.idx_ok _ _ hrevq2
    rwa [sIdxOf_boundary hT (by omega)] at hval
  rw [hrevq2]
  apply List.find?_eq_some.mpr
  refine ⟨by simp [hvalb], st.cache.lru.take i0, st.cache.lru.drop (i0 + 1),
    ?_, ?_⟩
  · rw [← List.drop_eq_getElem_cons hi0lt]
    exact (List.take_append_drop i0 st.cache.lru).symm
  · intro a ha
    rw [Bool.not_eq_true', beq_eq_false_iff_ne]
    obtain ⟨j, hjlt, hjeq⟩ := List.getElem_of_mem ha
    have hjlt2 : j < i0 := by
      rw [List.length_take] at hjlt
      omega
    have hjq : st.cache.lru.reverse[st.cache.lru.length - 1 - j]? = some a := by
      rw [List.getElem?_reverse (by omega),
        show st.cache.lru.length - 1 - (st.cache.lru.length - 1 - j) = j
          from by omega, List.getElem?_eq_getElem (by omega), ← hjeq]
      congr 1
      exact (List.getElem_take st.cache.lru).symm
    have hvala := hinv.idx_ok _ _ hjq
    rw [hvala]
    have hgt : k <
        sIdxOf cfg.min_size cfg.tick (st.cache.lru.length - 1 - j) := by
      rw [lt_sIdxOf_iff hT]
      omega
    omega

/-- C1: after any finite sequence of `access` calls on a freshly
constructed `GhostCache` whose constructor assertions hold (tick `T`,
`min_size` `L`, `max_size`, `num_ticks`), every node at MRU-position
`j` of the inner LRU list carries `size_idx` equal to the smallest `k`
with `j < L + k*T`, i.e. the smallest spectrum size that would keep the
node resident; and for each `k < num_ticks - 1`, once at least
`L + k*T` distinct keys have been accessed, `boundaries[k]` points at
the oldest node currently having `size_idx = k`, while with fewer than
`L + k*T` distinct keys accessed it is null. -/
theorem ghost_boundary_invariant (cfg : GhostConfig) (hv : cfg.Valid)
    (hashFn : Nat → Nat) (seq : List (Nat × AccessMode))
    (st : GhostState Nat)
    (hrun : runAccesses cfg hashFn (initGhost cfg 0) seq = some st) :
    (∀ j e, st.cache.lru.reverse[j]? = some e →
      j < cfg.min_size + (st.cache.nodes e).value * cfg.tick ∧
      ∀ k, j < cfg.min_size + k * cfg.tick → (st.cache.nodes e).value ≤ k) ∧
    (∀ k, k < cfg.num_ticks - 1 →
      (cfg.min_size + k * cfg.tick ≤ (seq.map Prod.fst).toFinset.card →
        ∃ b, st.boundaries.getD k none = some b ∧
          st.cache.lru.find? (fun a => (st.cache.nodes a).value == k) =
            some b) ∧
      ((seq.map Prod.fst).toFinset.card < cfg.min_size + k * cfg.tick →
        st.boundaries.getD k none = none)) := by
  obtain ⟨hT, hL, hUT, hNt⟩ := hv
  have hbase := ghost_init_inv cfg hashFn
  obtain ⟨hinv, hlen, hsub1, hsub2⟩ :=
    ghost_run_inv cfg ⟨hT, hL, hUT, hNt⟩ hashFn seq [] (initGhost cfg 0)
      hbase (by simp [initGhost, initLRU])
      (by
        intro k2 hk2
        simp [keysOf, initGhost, initLRU] at hk2)
      (fun _ k2 hk2 => absurd hk2 (List.not_mem_nil k2)) st hrun
  rw [List.nil_append] at hlen
  constructor
  · intro j e hj
    have hval := hinv.idx_ok j e hj
    rw [hval]
    exact ⟨sIdxOf_self_lt hT j, fun k hk => (sIdxOf_le_iff hT).mpr hk⟩
  · intro k hk
    have hbnd := hinv.bnd_ok k hk
    have hkU : cfg.min_size + k * cfg.tick < cfg.max_size := by
      have h1 : (k + 1) * cfg.tick ≤ (cfg.num_ticks - 1) * cfg.tick :=
        Nat.mul_le_mul_right _ (by omega)
      have h2 : (k + 1) * cfg.tick = k * cfg.tick + cfg.tick := by ring
      omega
    constructor
    · intro hge
      have hlenge : cfg.min_size + k * cfg.tick ≤ st.cache.lru.length := by
        omega
      have hq : cfg.min_size + k * cfg.tick - 1 <
          st.cache.lru.reverse.length := by
        rw [List.length_reverse]
        omega
      refine ⟨st.cache.lru.reverse[cfg.min_size + k * cfg.tick - 1], ?_, ?_⟩
      · rw [hbnd]
        exact List.getElem?_eq_getElem hq
      · rw [find_oldest cfg ⟨hT, hL, hUT, hNt⟩ hashFn st hinv k hk hlenge]
        exact List.getElem?_eq_getElem hq
    · intro hlt
      rw [hbnd]
      apply List.getElem?_eq_none
      rw [List.length_reverse]
      omega

/-- C10: in every state reachable by `access` calls from the
constructor, the inner cache's `in_use_` list is empty, so the
allocation inside `refresh` can always pop the free list or evict the
LRU node and never returns null: a further `access` with any key and
any `AccessMode` succeeds (the `assert(h)` on the returned handle
holds). -/
theorem ghost_access_never_null (cfg : GhostConfig) (hv : cfg.Valid)
    (hashFn : Nat → Nat) (seq : List (Nat × AccessMode))
    (st : GhostState Nat)
    (hrun : runAccesses cfg hashFn (initGhost cfg 0) seq = some st) :
    st.cache.in_use = [] ∧
    ∀ key mode, (access cfg hashFn st key mode).isSome = true := by
  obtain ⟨hinv, _, _, _⟩ :=
    ghost_run_inv cfg hv hashFn seq [] (initGhost cfg 0)
      (ghost_init_inv cfg hashFn) (by simp [initGhost, initLRU])
      (by
        intro k2 hk2
        simp [keysOf, initGhost, initLRU] at hk2)
      (fun _ k2 hk2 => absurd hk2 (List.not_mem_nil k2)) st hrun
  refine ⟨hinv.in_use_nil, ?_⟩
  intro key mode
  obtain ⟨st', h', hacc, _, _⟩ :=
    ghost_access_step cfg hv hashFn st hinv key mode
  have hacc2 : access cfg hashFn st key mode = some (st', h') := hacc
  rw [hacc2]
  rfl

theorem ghost_boundary_invariant_witness :
    t1cfg.Valid ∧
    ∃ st, runAccesses t1cfg (fun x => x) (initGhost t1cfg 0)
        [(5, AccessMode.DEFAULT), (6, AccessMode.DEFAULT)] = some st ∧
      ((∀ j e, st.cache.lru.reverse[j]? = some e →
        j < t1cfg.min_size + (st.cache.nodes e).value * t1cfg.tick ∧
        ∀ k, j < t1cfg.min_size + k * t1cfg.tick →
          (st.cache.nodes e).value ≤ k) ∧
      (∀ k, k < t1cfg.num_ticks - 1 →
        (t1cfg.min_size + k * t1cfg.tick ≤
            (([(5, AccessMode.DEFAULT), (6, AccessMode.DEFAULT)]
              : List (Nat × AccessMode)).map Prod.fst).toFinset.card →
          ∃ b, st.boundaries.getD k none = some b ∧
            st.cache.lru.find? (fun a => (st.cache.nodes a).value == k) =
              some b) ∧
        ((([(5, AccessMode.DEFAULT), (6, AccessMode.DEFAULT)]
            : List (Nat × AccessMode)).map Prod.fst).toFinset.card <
            t1cfg.min_size + k * t1cfg.tick →
          st.boundaries.getD k none = none))) := by
  refine ⟨by decide, ?_⟩
  have hsome : (runAccesses t1cfg (fun x => x) (initGhost t1cfg 0)
      [(5, AccessMode.DEFAULT), (6, AccessMode.DEFAULT)]).isSome = true := by
    decide
  obtain ⟨st, hst⟩ := Option.isSome_iff_exists.1 hsome
  exact ⟨st, hst,
    ghost_boundary_invariant t1cfg (by decide) (fun x => x) _ st hst⟩

theorem ghost_access_never_null_witness :
    t1cfg.Valid ∧
    ∃ st, runAccesses t1cfg (fun x => x) (initGhost t1cfg 0)
        [(5, AccessMode.DEFAULT), (6, AccessMode.DEFAULT)] = some st ∧
      st.cache.in_use = [] ∧
      ∀ key mode, (access t1cfg (fun x => x) st key mode).isSome = true := by
  refine ⟨by decide, ?_⟩
  have hsome : (runAccesses t1cfg (fun x => x) (initGhost t1cfg 0)
      [(5, AccessMode.DEFAULT), (6, AccessMode.DEFAULT)]).isSome = true := by
    decide
  obtain ⟨st, hst⟩ := Option.isSome_iff_exists.1 hsome
  exact ⟨st, hst,
    ghost_access_never_null t1cfg (by decide) (fun x => x) _ st hst⟩


end Gcache
